import Mathlib

/-!
Shallow embedding of `src/rsa.hpp`, a toy RSA class written against C++
`long long` arithmetic, together with proofs about its arithmetic core
(`isPrime`, `modInverse`, `modPow`), its codec layer (`binaryToLong`,
`longToBinary`) and its string facade (`encryptString`, `decryptString`,
`encryptHuffmanCodes`, `decryptHuffmanCodes`).

Modelling conventions:
* C++ `long long` is modelled as `Int`; every value this program computes is
  far below 2^63, so two's-complement wrap-around is not modelled.
* C++ truncated division and remainder (`/`, `%` on `long long`) are
  `Int.tdiv` and `Int.tmod`.
* C++ division by zero is undefined behaviour.  `modInverse` is the one place
  in the source that can reach it (`q = a / m` with `m == 0`), so its loop
  returns `Option Int`, with `none` marking the division by zero.
* `std::string` is modelled as `List Nat`, one element per byte.  `char` is
  taken to be unsigned (as on AArch64 Linux): a character converts to
  `long long` as its byte value in `[0, 256)`, and `static_cast<char>` of a
  `long long` keeps the value modulo 256.
* `std::stringstream >> token` splits the input on runs of `isspace` bytes
  (space, `\t`, `\n`, `\v`, `\f`, `\r`).  `std::stoll` on a token is:
  optional sign, then the longest digit prefix; a token with no digits makes
  `stoll` throw, which is modelled as `none`.
* `exp & 1`, `exp >>= 1`, `result << 1`, `|`, `num >> i` are the bitwise
  operations `Int.land`, `>>>`, `<<<`, `Int.lor` (arithmetic shifts, as on
  two's-complement hardware).
-/

namespace RSA

/-- Loop of `isPrime` (src/rsa.hpp:37-39): trial division by `i` and `i + 2`
with `i` stepping through `5, 11, 17, ...`. -/
def isPrimeLoop (n i : Int) : Bool :=
  if i * i ≤ n then
    if n.tmod i = 0 ∨ n.tmod (i + 2) = 0 then false
    else isPrimeLoop n (i + 6)
  else true
termination_by (n + 7 - i).toNat
decreasing_by
  have hn : 0 ≤ n := le_trans (mul_self_nonneg i) (by assumption)
  have hi : 2 * i ≤ n + 1 := by nlinarith [mul_self_nonneg (i - 1)]
  omega

/-- `isPrime` (src/rsa.hpp:32-41). -/
def isPrime (n : Int) : Bool :=
  if n ≤ 1 then false
  else if n ≤ 3 then true
  else if n.tmod 2 = 0 ∨ n.tmod 3 = 0 then false
  else isPrimeLoop n 5

/-- Loop of `modInverse` (src/rsa.hpp:50-58).  One iteration maps the state
`(a, m, x0, x1)` to `(m, a % m, x1 - (a / m) * x0, x0)`.  When `m = 0` and
`a > 1` the C++ divides by zero, which is the `none` branch. -/
def modInverseLoop (a m x0 x1 : Int) : Option Int :=
  if 1 < a then
    if m = 0 then none
    else modInverseLoop m (a.tmod m) (x1 - a.tdiv m * x0) x0
  else some x1
termination_by m.natAbs
decreasing_by
  rcases a with a | a <;> rcases m with m | m <;>
    simp only [Int.tmod, Int.ofNat_eq_coe, Int.natAbs_neg, Int.natAbs_ofNat,
      Int.natAbs_negSucc] <;>
    first
    | exact Nat.mod_lt _ (Nat.succ_pos _)
    | (rename_i hm
       have hm2 : m ≠ 0 := by simpa using hm
       exact Nat.mod_lt _ (Nat.pos_of_ne_zero hm2))

/-- `modInverse` (src/rsa.hpp:44-62): extended Euclid with the final
normalisation `if (x1 < 0) x1 += m0`. -/
def modInverse (a m : Int) : Option Int :=
  if m = 1 then some 0
  else (modInverseLoop a m 0 1).map (fun x1 => if x1 < 0 then x1 + m else x1)

/-- Loop of `modPow` (src/rsa.hpp:68-72): square-and-multiply.  `result` is
updated with the old `base` before `base` is squared and `exp` shifted. -/
def modPowLoop (base exp m result : Int) : Int :=
  if 0 < exp then
    modPowLoop ((base * base).tmod m) (exp >>> (1 : Int)) m
      (if Int.land exp 1 = 1 then (result * base).tmod m else result)
  else result
termination_by exp.toNat
decreasing_by
  rename_i hexp
  obtain ⟨e, rfl⟩ : ∃ k : Nat, exp = (k : Int) :=
    ⟨exp.toNat, (Int.toNat_of_nonneg (le_of_lt hexp)).symm⟩
  have h1 : (1 : Int) = ((1 : Nat) : Int) := rfl
  rw [h1, Int.shiftRight_coe_nat]
  have he : 0 < e := by exact_mod_cast hexp
  simp only [Int.toNat_ofNat, Int.toNat_natCast]
  calc e >>> 1 = e / 2 := by simp [Nat.shiftRight_succ, Nat.shiftRight_zero]
    _ < e := Nat.div_lt_self he (by omega)

/-- `modPow` (src/rsa.hpp:65-74): `result = 1; base = base % mod;` then the
loop. -/
def modPow (base exp m : Int) : Int :=
  modPowLoop (base.tmod m) exp m 1

/-- `binaryToLong` (src/rsa.hpp:77-83): left-shift-and-or accumulation of
`bit - '0'` over the bytes of the string. -/
def binaryToLong (s : List Nat) : Int :=
  s.foldl (fun (result : Int) (bit : Nat) => Int.lor (result <<< (1 : Int)) ((bit : Int) - 48)) 0

/-- Loop of `longToBinary` (src/rsa.hpp:88-90): `i` runs from `bits - 1` down
to `0`, appending `'1'` (byte 49) when `(num >> i) & 1` is set, else `'0'`. -/
def longToBinaryLoop (num i : Int) : List Nat :=
  if 0 ≤ i then
    (if Int.land (num >>> i) 1 = 1 then 49 else 48) :: longToBinaryLoop num (i - 1)
  else []
termination_by (i + 1).toNat
decreasing_by omega

/-- `longToBinary` (src/rsa.hpp:86-92). -/
def longToBinary (num bits : Int) : List Nat :=
  longToBinaryLoop num (bits - 1)

/-- The fixed public exponent chosen by the constructor (src/rsa.hpp:105). -/
def eVal : Int := 65537

/-- `n = p * q` (src/rsa.hpp:101). -/
def nVal (p q : Int) : Int := p * q

/-- `phi = (p - 1) * (q - 1)` (src/rsa.hpp:102). -/
def phiVal (p q : Int) : Int := (p - 1) * (q - 1)

/-- `d = modInverse(e, phi)` (src/rsa.hpp:108), as a function of the two
primes the constructor drew. -/
def dVal (p q : Int) : Option Int := modInverse eVal (phiVal p q)

/-- `encrypt` (src/rsa.hpp:122-124). -/
def encrypt (e n message : Int) : Int := modPow message e n

/-- `decrypt` (src/rsa.hpp:127-129). -/
def decrypt (d n ciphertext : Int) : Int := modPow ciphertext d n

/-- The bytes `std::isspace` accepts in the default locale; these are what
`stringstream >> token` skips. -/
def isSpaceByte (c : Nat) : Bool :=
  c = 32 ∨ c = 9 ∨ c = 10 ∨ c = 11 ∨ c = 12 ∨ c = 13

/-- ASCII decimal digit bytes, as consumed by `std::stoll`. -/
def isDigitByte (c : Nat) : Bool :=
  48 ≤ c ∧ c ≤ 57

/-- The token stream produced by repeated `ss >> token`: skip whitespace,
then read a maximal run of non-whitespace bytes. -/
def tokenize (s : List Nat) : List (List Nat) :=
  match s with
  | [] => []
  | c :: cs =>
    if isSpaceByte c then tokenize cs
    else (c :: cs.takeWhile (fun b => ! isSpaceByte b)) ::
      tokenize (cs.dropWhile (fun b => ! isSpaceByte b))
termination_by s.length
decreasing_by
  · simp
  · have h2 : (cs.dropWhile (fun b => ! isSpaceByte b)).length ≤ cs.length :=
      (List.dropWhile_sublist _).length_le
    simp only [List.length_cons]
    omega

/-- Decimal digit bytes of a natural number, most significant first, as
`std::to_string` renders it. -/
def decimalDigits (k : Nat) : List Nat :=
  if k = 0 then [48] else (Nat.digits 10 k).reverse.map (fun d => 48 + d)

/-- `std::to_string` on a `long long`, as bytes. -/
def decimalChars (v : Int) : List Nat :=
  if v < 0 then 45 :: decimalDigits v.natAbs else decimalDigits v.toNat

/-- `std::stoll` applied to one whitespace-free token: optional sign, then
the longest digit prefix; no digits at all throws, modelled as `none`.
(Out-of-range values also throw in C++; the embedding is unbounded.) -/
def parseDecimal (tok : List Nat) : Option Int :=
  let sr : Int × List Nat :=
    match tok with
    | [] => (1, [])
    | c :: r => if c = 45 then (-1, r) else if c = 43 then (1, r) else (1, c :: r)
  let ds := sr.2.takeWhile isDigitByte
  if ds = [] then none
  else some (sr.1 * ds.foldl (fun (a : Int) (c : Nat) => 10 * a + ((c : Int) - 48)) 0)

/-- `encryptString` (src/rsa.hpp:132-140): for each character, append the
decimal rendering of its encryption and a space. -/
def encryptString (e n : Int) (message : List Nat) : List Nat :=
  (message.map (fun (c : Nat) => decimalChars (encrypt e n (c : Int)) ++ [32])).flatten

/-- `decryptString` (src/rsa.hpp:143-154): for each token, `stoll`, decrypt,
and cast to `char` (keep the low byte). -/
def decryptString (d n : Int) (s : List Nat) : Option (List Nat) :=
  (tokenize s).mapM (fun tok =>
    (parseDecimal tok).map (fun num => ((decrypt d n num) % 256).toNat))

/-- `encryptHuffmanCodes` (src/rsa.hpp:157-178): for each token, parse it as
binary, encrypt, re-render at the token's own width, append a space. -/
def encryptHuffmanCodes (e n : Int) (huffmanCodes : List Nat) : List Nat :=
  ((tokenize huffmanCodes).map (fun tok =>
    longToBinary (encrypt e n (binaryToLong tok)) (tok.length : Int) ++ [32])).flatten

/-- `decryptHuffmanCodes` (src/rsa.hpp:181-201): same shape as
`encryptHuffmanCodes` with `decrypt` in place of `encrypt`. -/
def decryptHuffmanCodes (d n : Int) (s : List Nat) : List Nat :=
  ((tokenize s).map (fun tok =>
    longToBinary (decrypt d n (binaryToLong tok)) (tok.length : Int) ++ [32])).flatten

/-! Proof-side definitions (not part of the source): reference predicates and
measures the theorems compare the embedding against. -/

/-- Canonical serialisation the two decrypt methods emit: each token followed
by a single space (so a trailing space ends the output). -/
def joinTokens (toks : List (List Nat)) : List Nat :=
  (toks.map (fun t => t ++ [32])).flatten

/-- Reference trial-division primality oracle: `x` is prime iff `2 ≤ x` and
no `d` with `2 ≤ d < x` divides it. -/
def trialPrime (x : Nat) : Bool :=
  decide (2 ≤ x) && (List.range x).all (fun d => decide (d < 2) || decide (x % d ≠ 0))

/-- Value of a big-endian binary digit string, over `Nat`. -/
def natVal (l : List Nat) : Nat :=
  l.foldl (fun a c => 2 * a + (c - 48)) 0

/-- The low `j` bits of `k`, rendered most significant first. -/
def natBits (k : Nat) : Nat → List Nat
  | 0 => []
  | j + 1 => (if k / 2 ^ j % 2 = 1 then 49 else 48) :: natBits k j

/-- A string presented as optional leading whitespace followed by pieces,
each piece a token and the whitespace run after it.  This is how an
arbitrary whitespace-delimited input decomposes. -/
def renderPieces (lead : List Nat) (pieces : List (List Nat × List Nat)) : List Nat :=
  lead ++ (pieces.map (fun pr => pr.1 ++ pr.2)).flatten

/-- Size bound on the Bezout coefficient of `a` maintained through
`modInverseLoop`. -/
def euclidBoundU (a m : Nat) : Nat :=
  if a = 1 then 1 else if m = 1 then 0 else m / 2

/-- Size bound on the Bezout coefficient of `m` maintained through
`modInverseLoop`. -/
def euclidBoundV (a m : Nat) : Nat :=
  if a = 1 then 0 else if m = 1 then 1 else a / 2

/-! ### Bridges between the C++ operators and mathematical arithmetic -/

theorem land_one_eq (e : Int) (h : 0 ≤ e) : Int.land e 1 = e % 2 := by
  obtain ⟨k, rfl⟩ := Int.eq_ofNat_of_zero_le h
  have h1 : Int.land (k : Int) (1 : Int) = ((k &&& 1 : Nat) : Int) := rfl
  rw [h1, Nat.and_one_is_mod]
  omega

theorem shiftRight_one_eq (e : Int) (h : 0 ≤ e) : e >>> (1 : Int) = e / 2 := by
  obtain ⟨k, rfl⟩ := Int.eq_ofNat_of_zero_le h
  have h1 : (1 : Int) = ((1 : Nat) : Int) := rfl
  rw [h1, Int.shiftRight_coe_nat]
  have h2 : k >>> 1 = k / 2 := by
    simp [Nat.shiftRight_succ, Nat.shiftRight_zero]
  rw [h2]
  omega

theorem pow_emod (a : Int) (b : Nat) (n : Int) : a ^ b % n = (a % n) ^ b % n :=
  (Int.ModEq.pow b (Int.emod_emod_of_dvd a dvd_rfl)).symm

/-! ### `modPow` computes modular exponentiation -/

theorem modPowLoop_nonneg (base exp m result : Int) (hb : 0 ≤ base)
    (hr : 0 ≤ result) : 0 ≤ modPowLoop base exp m result := by
  induction base, exp, m, result using modPowLoop.induct with
  | case1 base exp m result hexp ih =>
    rw [modPowLoop, if_pos hexp]
    exact ih (Int.tmod_nonneg m (mul_nonneg hb hb))
      (by split
          · exact Int.tmod_nonneg m (mul_nonneg hr hb)
          · exact hr)
  | case2 base exp m result hexp =>
    rw [modPowLoop, if_neg hexp]
    exact hr

theorem modPowLoop_eq (base exp m result : Int) (hexp : 0 < exp) (hb : 0 ≤ base)
    (hr : 0 ≤ result) (hm : 0 < m) :
    modPowLoop base exp m result = (result * base ^ exp.toNat) % m := by
  induction base, exp, m, result using modPowLoop.induct with
  | case2 base exp m result h => omega
  | case1 base exp m result h ih =>
    rw [modPowLoop, if_pos h]
    have hsh : exp >>> (1 : Int) = exp / 2 := shiftRight_one_eq exp (le_of_lt h)
    have hland : Int.land exp 1 = exp % 2 := land_one_eq exp (le_of_lt h)
    have hb2 : (0 : Int) ≤ (base * base).tmod m := Int.tmod_nonneg m (mul_nonneg hb hb)
    have htm : (base * base).tmod m = base * base % m :=
      Int.tmod_eq_emod (mul_nonneg hb hb) (le_of_lt hm)
    rcases Int.emod_two_eq exp with hbit | hbit
    · -- even exponent: the accumulator is untouched and exp / 2 > 0
      simp only [hland, hbit] at ih ⊢
      norm_num at ih ⊢
      rw [hsh] at ih ⊢
      rw [ih (by omega) hb2 hr hm, htm,
        show exp.toNat = 2 * (exp / 2).toNat from by omega, pow_mul, pow_two,
        Int.mul_emod result, ← pow_emod, ← Int.mul_emod]
    · -- odd exponent: the accumulator picks up one factor of base
      have hr2 : (0 : Int) ≤ (result * base).tmod m := Int.tmod_nonneg m (mul_nonneg hr hb)
      have htr : (result * base).tmod m = result * base % m :=
        Int.tmod_eq_emod (mul_nonneg hr hb) (le_of_lt hm)
      simp only [hland, hbit] at ih ⊢
      norm_num at ih ⊢
      rw [hsh] at ih ⊢
      by_cases h2 : 0 < exp / 2
      · rw [ih h2 hb2 hr2 hm, htr, htm,
          show exp.toNat = 2 * (exp / 2).toNat + 1 from by omega, pow_succ, pow_mul, pow_two,
          Int.mul_emod (result * base % m), Int.emod_emod_of_dvd _ dvd_rfl,
          ← pow_emod, ← Int.mul_emod]
        ring_nf
      · have hexp1 : exp = 1 := by omega
        subst hexp1
        norm_num
        rw [modPowLoop]
        norm_num
        rw [htr]

theorem modPow_eq (base exp m : Int) (hexp : 0 < exp) (hb : 0 ≤ base)
    (hm : 0 < m) : modPow base exp m = base ^ exp.toNat % m := by
  rw [modPow, modPowLoop_eq _ _ _ _ hexp (Int.tmod_nonneg m hb) (by norm_num) hm,
    Int.tmod_eq_emod hb (le_of_lt hm), one_mul, ← pow_emod]

theorem modPow_of_nonpos (base exp m : Int) (hexp : exp ≤ 0) :
    modPow base exp m = 1 := by
  rw [modPow, modPowLoop, if_neg (by omega)]

theorem modPow_nonneg (base exp m : Int) (hb : 0 ≤ base) :
    0 ≤ modPow base exp m := by
  rw [modPow]
  exact modPowLoop_nonneg _ _ _ _ (Int.tmod_nonneg m hb) (by norm_num)

theorem modPow_lt (base exp m : Int) (hb : 0 ≤ base) (hm : 0 < m)
    (h : 1 < m ∨ 0 < exp) : modPow base exp m < m := by
  by_cases hexp : 0 < exp
  · rw [modPow_eq base exp m hexp hb hm]
    exact Int.emod_lt_of_pos _ hm
  · rw [modPow_of_nonpos base exp m (by omega)]
    omega

/-! ### `modInverse` is a correct extended Euclidean algorithm -/

theorem tmod_coe (x y : Nat) : Int.tmod (x : Int) (y : Int) = ((x % y : Nat) : Int) := rfl

theorem tdiv_coe (x y : Nat) : Int.tdiv (x : Int) (y : Int) = ((x / y : Nat) : Int) := rfl

theorem gcd_step (aN mN : Nat) :
    Int.gcd ((mN : Int)) (((aN % mN : Nat) : Int)) = Int.gcd ((aN : Int)) ((mN : Int)) := by
  rw [Int.gcd_def, Int.gcd_def]
  simp only [Int.natAbs_ofNat]
  rw [Nat.gcd_comm aN mN, Nat.gcd_rec mN aN, Nat.gcd_comm]

/-- Main loop invariant of the extended Euclidean algorithm: on coprime
nonnegative inputs the loop returns a linear combination of its two
accumulators whose coefficients are Bezout coefficients for `(a, m)`,
bounded by `euclidBoundU` / `euclidBoundV`. -/
theorem modInverseLoop_spec :
    ∀ (N : Nat) (m a x0 x1 : Int), m.natAbs ≤ N → 1 ≤ a → 0 ≤ m →
      Int.gcd a m = 1 →
      ∃ U V : Int, modInverseLoop a m x0 x1 = some (x1 * U + x0 * V) ∧
        a * U + m * V = 1 ∧
        U.natAbs ≤ euclidBoundU a.natAbs m.natAbs ∧
        V.natAbs ≤ euclidBoundV a.natAbs m.natAbs := by
  intro N
  induction N with
  | zero =>
    intro m a x0 x1 hmN ha hm hgcd
    have hm0 : m = 0 := by omega
    subst hm0
    rw [Int.gcd_zero_right] at hgcd
    have ha1 : a = 1 := by omega
    subst ha1
    refine ⟨1, 0, ?_, by ring, ?_, ?_⟩
    · rw [modInverseLoop]
      norm_num
    · simp [euclidBoundU]
    · simp [euclidBoundV]
  | succ N ih =>
    intro m a x0 x1 hmN ha hm hgcd
    by_cases ha1 : 1 < a
    · by_cases hm0 : m = 0
      · exfalso
        subst hm0
        rw [Int.gcd_zero_right] at hgcd
        omega
      · obtain ⟨aN, rfl⟩ := Int.eq_ofNat_of_zero_le (show (0 : Int) ≤ a by omega)
        obtain ⟨mN, rfl⟩ := Int.eq_ofNat_of_zero_le hm
        have hmN2 : 0 < mN := by omega
        have haN2 : 2 ≤ aN := by omega
        have hrcast : Int.tmod (aN : Int) (mN : Int) = ((aN % mN : Nat) : Int) := tmod_coe aN mN
        have hqcast : Int.tdiv (aN : Int) (mN : Int) = ((aN / mN : Nat) : Int) := tdiv_coe aN mN
        have hgcd2 : Int.gcd ((mN : Int)) (((aN % mN : Nat) : Int)) = 1 := by
          rw [gcd_step]
          exact hgcd
        have hrN : ((aN % mN : Nat) : Int).natAbs ≤ N := by
          have h2 : aN % mN < mN := Nat.mod_lt _ hmN2
          simp only [Int.natAbs_ofNat]
          omega
        obtain ⟨U', V', hrec, hbez, hU', hV'⟩ :=
          ih ((aN % mN : Nat) : Int) ((mN : Int)) (x1 - Int.tdiv (aN : Int) (mN : Int) * x0) x0
            hrN (by exact_mod_cast hmN2) (by positivity) hgcd2
        have hrne : mN ≠ 1 → aN % mN ≠ 0 := by
          intro hmne h0
          rw [h0] at hgcd2
          simp only [Nat.cast_zero, Int.gcd_zero_right, Int.natAbs_ofNat] at hgcd2
          exact hmne hgcd2
        refine ⟨V', U' - Int.tdiv (aN : Int) (mN : Int) * V', ?_, ?_, ?_, ?_⟩
        · rw [modInverseLoop, if_pos ha1, if_neg hm0, hrcast, hrec]
          congr 1
          ring
        · have heq : ((aN % mN : Nat) : Int) + (mN : Int) * Int.tdiv (aN : Int) (mN : Int)
              = (aN : Int) := by
            rw [← hrcast]
            exact Int.tmod_add_tdiv _ _
          linear_combination hbez - V' * heq
        · -- bound on the coefficient of a
          simp only [Int.natAbs_ofNat] at hU' hV' ⊢
          by_cases hm1 : mN = 1
          · subst hm1
            simp only [Nat.mod_one] at hV'
            rw [euclidBoundV, if_pos rfl] at hV'
            rw [euclidBoundU, if_neg (by omega), if_pos rfl]
            omega
          · rw [euclidBoundU, if_neg (by omega), if_neg hm1]
            rcases Nat.lt_or_ge (aN % mN) 2 with hr1 | hr1
            · have hr1' : aN % mN = 1 := by
                have := hrne hm1
                omega
              rw [hr1'] at hV'
              rw [euclidBoundV, if_neg hm1, if_pos rfl] at hV'
              have hmN3 : 2 ≤ mN := by omega
              omega
            · rw [euclidBoundV, if_neg hm1, if_neg (by omega)] at hV'
              omega
        · -- bound on the coefficient of m
          simp only [Int.natAbs_ofNat] at hU' hV' ⊢
          have habs : (U' - Int.tdiv (aN : Int) (mN : Int) * V').natAbs ≤
              U'.natAbs + (aN / mN) * V'.natAbs := by
            calc (U' - Int.tdiv (aN : Int) (mN : Int) * V').natAbs
                ≤ U'.natAbs + (Int.tdiv (aN : Int) (mN : Int) * V').natAbs :=
                  Int.natAbs_sub_le _ _
              _ = U'.natAbs + (aN / mN) * V'.natAbs := by
                  rw [Int.natAbs_mul, hqcast, Int.natAbs_ofNat]
          have hdm : mN * (aN / mN) + aN % mN = aN := Nat.div_add_mod aN mN
          by_cases hm1 : mN = 1
          · -- m = 1: U' = 1, V' = 0, and the new coefficient is exactly 1
            subst hm1
            simp only [Nat.mod_one] at hbez hU' hV'
            rw [euclidBoundV, if_pos rfl] at hV'
            have hV0 : V' = 0 := by omega
            have hU1 : U' = 1 := by
              rw [hV0] at hbez
              push_cast at hbez
              linarith
            rw [euclidBoundV, if_neg (by omega), if_pos rfl, hV0, hU1]
            norm_num
          · rw [euclidBoundV, if_neg (by omega), if_neg hm1]
            rcases Nat.lt_or_ge (aN % mN) 2 with hr1 | hr1
            · -- remainder 1: U' = 0 and |V'| ≤ 1
              have hr1' : aN % mN = 1 := by
                have := hrne hm1
                omega
              rw [hr1'] at hU' hV'
              rw [euclidBoundU, if_neg hm1, if_pos rfl] at hU'
              rw [euclidBoundV, if_neg hm1, if_pos rfl] at hV'
              have hmN3 : 2 ≤ mN := by omega
              have hq2 : aN / mN ≤ aN / 2 := Nat.div_le_div_left hmN3 (by omega)
              have hmul : (aN / mN) * V'.natAbs ≤ aN / mN := by
                calc (aN / mN) * V'.natAbs ≤ (aN / mN) * 1 := Nat.mul_le_mul_left _ hV'
                  _ = aN / mN := by ring
              omega
            · rw [euclidBoundU, if_neg hm1, if_neg (by omega)] at hU'
              rw [euclidBoundV, if_neg hm1, if_neg (by omega)] at hV'
              -- |U' - q V'| ≤ r/2 + q*(m/2) ≤ (r + q*m)/2 = a/2
              have hmul : (aN / mN) * V'.natAbs ≤ (aN / mN) * (mN / 2) :=
                Nat.mul_le_mul_left _ hV'
              have hhalf : aN % mN / 2 + (aN / mN) * (mN / 2) ≤ aN / 2 := by
                rw [Nat.le_div_iff_mul_le (by omega : 0 < 2)]
                have h1 : (aN % mN / 2) * 2 ≤ aN % mN := by omega
                have h2 : ((aN / mN) * (mN / 2)) * 2 ≤ (aN / mN) * mN := by
                  rw [mul_assoc]
                  exact Nat.mul_le_mul_left _ (by omega)
                calc (aN % mN / 2 + (aN / mN) * (mN / 2)) * 2
                    = (aN % mN / 2) * 2 + ((aN / mN) * (mN / 2)) * 2 := by ring
                  _ ≤ aN % mN + (aN / mN) * mN := Nat.add_le_add h1 h2
                  _ = aN := by rw [mul_comm (aN / mN) mN]; omega
              omega
    · -- exit of the loop: a = 1
      have ha1' : a = 1 := by omega
      subst ha1'
      refine ⟨1, 0, ?_, by ring, ?_, ?_⟩
      · rw [modInverseLoop]
        norm_num
      · simp [euclidBoundU]
      · simp [euclidBoundV]

/-- `modInverse` on coprime inputs `1 ≤ a`, `1 < m` returns the inverse of
`a` modulo `m`, normalised into `[0, m)`. -/
theorem modInverse_spec (a m : Int) (ha : 1 ≤ a) (hm : 1 < m)
    (hgcd : Int.gcd a m = 1) :
    ∃ r, modInverse a m = some r ∧ 0 ≤ r ∧ r < m ∧ a * r % m = 1 % m := by
  obtain ⟨U, V, hrec, hbez, hU, hV⟩ :=
    modInverseLoop_spec m.natAbs m a 0 1 le_rfl ha (by omega) hgcd
  have hUbound : U.natAbs < m.natAbs := by
    rw [euclidBoundU] at hU
    by_cases ha1 : a.natAbs = 1
    · rw [if_pos ha1] at hU
      omega
    · rw [if_neg ha1, if_neg (by omega)] at hU
      omega
  have hcong : a * U % m = 1 % m := by
    calc a * U % m = (a * U + m * V) % m := (Int.add_mul_emod_self_left _ _ _).symm
      _ = 1 % m := by rw [hbez]
  refine ⟨if U < 0 then U + m else U, ?_, ?_, ?_, ?_⟩
  · rw [modInverse, if_neg (by omega), hrec]
    have hres : (1 : Int) * U + 0 * V = U := by ring
    rw [hres]
    rfl
  · split <;> omega
  · split <;> omega
  · split
    · rw [mul_add, mul_comm a m, Int.add_mul_emod_self_left]
      exact hcong
    · exact hcong

/-- `modInverse` completes without division by zero whenever the loop is not
entered, `m = 1`, or the inputs are nonnegative and coprime. -/
theorem modInverse_isSome (a m : Int)
    (h : a ≤ 1 ∨ m = 1 ∨ (1 ≤ a ∧ 0 ≤ m ∧ Int.gcd a m = 1)) :
    (modInverse a m).isSome = true := by
  by_cases hm : m = 1
  · simp [modInverse, hm]
  · rcases h with h | h | ⟨h1, h2, h3⟩
    · rw [modInverse, if_neg hm, modInverseLoop, if_neg (by omega)]
      rfl
    · exact absurd h hm
    · obtain ⟨U, V, hrec, -, -, -⟩ :=
        modInverseLoop_spec m.natAbs m a 0 1 le_rfl h1 h2 h3
      rw [modInverse, if_neg hm, hrec]
      rfl

/-! ### RSA correctness for distinct primes -/

theorem pow_one_add_mul_sub_one (r t m : Nat) (hr : r.Prime) :
    m ^ (1 + (r - 1) * t) ≡ m [MOD r] := by
  haveI := Fact.mk hr
  have hz : ((m ^ (1 + (r - 1) * t) : Nat) : ZMod r) = ((m : Nat) : ZMod r) := by
    push_cast
    by_cases h0 : (m : ZMod r) = 0
    · rw [h0, zero_pow (by positivity)]
    · rw [pow_add, pow_mul, pow_one, ZMod.pow_card_sub_one_eq_one h0, one_pow, mul_one]
  exact (ZMod.natCast_eq_natCast_iff _ _ _).mp hz

/-- Core RSA identity: decrypting an encrypted residue recovers the message,
for distinct primes `p ≠ q` and exponents with `e * D ≡ 1 (mod (p-1)(q-1))`. -/
theorem rsa_core (p q e D : Nat) (hp : p.Prime) (hq : q.Prime) (hpq : p ≠ q)
    (hed : 1 ≤ e * D) (hmod : e * D ≡ 1 [MOD (p - 1) * (q - 1)])
    (m : Nat) (hm : m < p * q) :
    (m ^ e % (p * q)) ^ D % (p * q) = m := by
  rw [← Nat.pow_mod, ← pow_mul]
  obtain ⟨k, hk⟩ : ((p - 1) * (q - 1)) ∣ e * D - 1 :=
    (Nat.modEq_iff_dvd' hed).mp hmod.symm
  have hE : e * D = 1 + (p - 1) * (q - 1) * k := by omega
  have hcp : m ^ (e * D) ≡ m [MOD p] := by
    have h2 : e * D = 1 + (p - 1) * ((q - 1) * k) := by rw [hE]; ring
    rw [h2]
    exact pow_one_add_mul_sub_one p ((q - 1) * k) m hp
  have hcq : m ^ (e * D) ≡ m [MOD q] := by
    have h2 : e * D = 1 + (q - 1) * ((p - 1) * k) := by rw [hE]; ring
    rw [h2]
    exact pow_one_add_mul_sub_one q ((p - 1) * k) m hq
  have hcop : Nat.Coprime p q := (Nat.coprime_primes hp hq).mpr hpq
  have hcn : m ^ (e * D) ≡ m [MOD p * q] :=
    (Nat.modEq_and_modEq_iff_modEq_mul hcop).mp ⟨hcp, hcq⟩
  calc m ^ (e * D) % (p * q) = m % (p * q) := hcn
    _ = m := Nat.mod_eq_of_lt hm

theorem phi_gt_one (p q : Nat) (hp : p.Prime) (hq : q.Prime) (hpq : p ≠ q) :
    1 < (p - 1) * (q - 1) := by
  have hp2 := hp.two_le
  have hq2 := hq.two_le
  by_cases hp3 : p = 2
  · have hq3 : 3 ≤ q := by
      rcases Nat.lt_or_ge q 3 with h | h
      · exfalso
        exact hpq (by omega)
      · exact h
    calc 1 < 1 * (q - 1) := by omega
      _ ≤ (p - 1) * (q - 1) := Nat.mul_le_mul_right _ (by omega)
  · have hp4 : 3 ≤ p := by omega
    calc 1 < (p - 1) * 1 := by omega
      _ ≤ (p - 1) * (q - 1) := Nat.mul_le_mul_left _ (by omega)

theorem phiVal_coe (p q : Nat) (hp : 1 ≤ p) (hq : 1 ≤ q) :
    phiVal (p : Int) (q : Int) = (((p - 1) * (q - 1) : Nat) : Int) := by
  rw [phiVal]
  push_cast [hp, hq]
  ring

/-- Round trip of the integer cipher for any keypair built from two distinct
primes whose totient is coprime to the fixed exponent. -/
theorem rsa_roundtrip (p q : Nat) (hp : p.Prime) (hq : q.Prime) (hpq : p ≠ q)
    (hgcd : Nat.gcd 65537 ((p - 1) * (q - 1)) = 1)
    (d : Int) (hd : dVal (p : Int) (q : Int) = some d)
    (m : Int) (hm0 : 0 ≤ m) (hmlt : m < nVal (p : Int) (q : Int)) :
    decrypt d (nVal (p : Int) (q : Int)) (encrypt eVal (nVal (p : Int) (q : Int)) m) = m := by
  have hp1 := hp.two_le
  have hq1 := hq.two_le
  have hphi : 1 < (p - 1) * (q - 1) := phi_gt_one p q hp hq hpq
  -- identify d through the modInverse specification
  obtain ⟨r, hr, hr0, hrlt, hrcong⟩ :=
    modInverse_spec 65537 (((p - 1) * (q - 1) : Nat) : Int) (by norm_num)
      (by exact_mod_cast hphi)
      (by rw [Int.gcd_def]
          simp only [Int.natAbs_ofNat]
          exact_mod_cast hgcd)
  rw [dVal, eVal, phiVal_coe p q (by omega) (by omega), hr] at hd
  have hrd : r = d := by
    exact Option.some.inj hd
  subst hrd
  -- d is positive: d = 0 would make 0 ≡ 1 modulo a totient larger than 1
  have hd1 : 1 ≤ r := by
    rcases Nat.lt_or_ge 0 r.toNat with h | h
    · omega
    · exfalso
      have hr00 : r = 0 := by omega
      rw [hr00, mul_zero, Int.zero_emod] at hrcong
      have h1 : (1 : Int) % (((p - 1) * (q - 1) : Nat) : Int) = 1 := by
        rw [Int.emod_eq_of_lt (by norm_num) (by exact_mod_cast hphi)]
      omega
  -- move the congruence for d to the naturals
  have hED : 65537 * r.toNat ≡ 1 [MOD (p - 1) * (q - 1)] := by
    have h1 : ((65537 * r.toNat : Nat) : Int) % (((p - 1) * (q - 1) : Nat) : Int)
        = ((1 : Nat) : Int) % (((p - 1) * (q - 1) : Nat) : Int) := by
      push_cast
      rw [Int.toNat_of_nonneg hr0]
      exact_mod_cast hrcong
    rw [← Int.natCast_mod, ← Int.natCast_mod] at h1
    exact_mod_cast h1
  -- evaluate the two modular exponentiations
  have hnpos : (0 : Int) < nVal (p : Int) (q : Int) := by
    rw [nVal]
    positivity
  have hmN : m = ((m.toNat : Nat) : Int) := (Int.toNat_of_nonneg hm0).symm
  have henc : encrypt eVal (nVal (p : Int) (q : Int)) m
      = ((m.toNat ^ 65537 % (p * q) : Nat) : Int) := by
    rw [encrypt, eVal, modPow_eq _ _ _ (by norm_num) hm0 hnpos,
      Int.natCast_mod, Int.natCast_pow, Int.natCast_mul, nVal,
      show ((65537 : Int)).toNat = 65537 from rfl, ← hmN]
  have hmn : m.toNat < p * q := by
    rw [nVal] at hmlt
    have h2 : m < ((p * q : Nat) : Int) := by
      rw [Int.natCast_mul]
      exact hmlt
    omega
  rw [henc, decrypt, modPow_eq _ _ _ (by omega) (by positivity) hnpos, nVal,
    ← Int.natCast_pow, ← Int.natCast_mul, ← Int.natCast_mod,
    rsa_core p q 65537 r.toNat hp hq hpq (by omega) hED m.toNat hmn, ← hmN]

/-! ### `isPrime` is a correct primality test -/

theorem isPrimeLoop_spec (n : Int) (hn : 5 ≤ n) (h2 : ¬ (2 ∣ n)) (h3 : ¬ (3 ∣ n)) :
    ∀ i : Int, 5 ≤ i → i % 6 = 5 → (∀ k : Int, 2 ≤ k → k < i → ¬ k ∣ n) →
      (isPrimeLoop n i = true ↔ ∀ k : Int, 2 ≤ k → k * k ≤ n → ¬ k ∣ n) := by
  intro i
  induction i using isPrimeLoop.induct with
  | n => exact n
  | case1 i hle hdvd =>
    intro hi5 hi6 hinv
    rw [isPrimeLoop, if_pos hle, if_pos hdvd]
    simp only [Bool.false_eq_true, false_iff]
    push_neg
    rcases hdvd with hd | hd
    · exact ⟨i, by omega, hle, Int.dvd_of_tmod_eq_zero hd⟩
    · have hdn : (i + 2) ∣ n := Int.dvd_of_tmod_eq_zero hd
      by_cases hsq : (i + 2) * (i + 2) ≤ n
      · exact ⟨i + 2, by omega, hsq, hdn⟩
      · -- the cofactor of i + 2 is small; it gives the real witness
        obtain ⟨c, hc⟩ := hdn
        have hcpos : 0 < c := by nlinarith
        have hclt : c < i + 2 := by nlinarith
        have hcge : i - 1 ≤ c := by nlinarith
        have hcdvd : c ∣ n := ⟨i + 2, by rw [hc]; ring⟩
        rcases Int.lt_or_le c i with hci | hci
        · exfalso
          exact hinv c (by omega) hci hcdvd
        · rcases Int.lt_or_le c (i + 1) with hci2 | hci2
          · -- c = i, so i divides n and i * i ≤ n
            have hceq : c = i := by omega
            subst hceq
            exact ⟨c, by omega, hle, hcdvd⟩
          · -- c = i + 1 is even, contradicting 2 ∤ n
            exfalso
            have hceq : c = i + 1 := by omega
            apply h2
            apply dvd_trans _ hcdvd
            exact Int.dvd_of_emod_eq_zero (by omega)
  | case2 i hle hdvd ih =>
    intro hi5 hi6 hinv
    rw [isPrimeLoop, if_pos hle, if_neg hdvd]
    push_neg at hdvd
    apply ih (by omega) (by omega)
    intro k hk2 hklt hkdvd
    rcases Int.lt_or_le k i with hki | hki
    · exact hinv k hk2 hki hkdvd
    · have hkcase : k = i ∨ k = i + 1 ∨ k = i + 2 ∨ k = i + 3 ∨ k = i + 4 ∨ k = i + 5 := by
        omega
      have heven : ∀ j : Int, j % 2 = 0 → j ∣ n → False := by
        intro j hj hjd
        exact h2 (dvd_trans (Int.dvd_of_emod_eq_zero hj) hjd)
      rcases hkcase with h | h | h | h | h | h
      · subst h
        exact hdvd.1 (Int.tmod_eq_zero_of_dvd hkdvd)
      · subst h
        exact heven _ (by omega) hkdvd
      · subst h
        exact hdvd.2 (Int.tmod_eq_zero_of_dvd hkdvd)
      · subst h
        exact heven _ (by omega) hkdvd
      · subst h
        exact h3 (dvd_trans (Int.dvd_of_emod_eq_zero (by omega)) hkdvd)
      · subst h
        exact heven _ (by omega) hkdvd
  | case3 i hle =>
    intro hi5 hi6 hinv
    rw [isPrimeLoop, if_neg hle]
    simp only [true_iff]
    intro k hk2 hksq hkdvd
    have hki : k < i := by nlinarith
    exact hinv k hk2 hki hkdvd

theorem trialPrime_iff (x : Nat) : trialPrime x = true ↔ x.Prime := by
  rw [trialPrime, Nat.prime_def_lt]
  simp only [Bool.and_eq_true, decide_eq_true_eq, List.all_eq_true, List.mem_range,
    Bool.or_eq_true]
  constructor
  · rintro ⟨hx2, hall⟩
    refine ⟨hx2, fun m hm hdvd => ?_⟩
    rcases hall m hm with h | h
    · have hm0 : m ≠ 0 := by
        intro h0
        subst h0
        exact absurd (Nat.eq_zero_of_zero_dvd hdvd) (by omega)
      omega
    · exfalso
      exact h (Nat.mod_eq_zero_of_dvd hdvd)
  · rintro ⟨hx2, hmin⟩
    refine ⟨hx2, fun d hd => ?_⟩
    by_cases hd2 : d < 2
    · exact Or.inl hd2
    · right
      intro hmod
      have hdvd : d ∣ x := Nat.dvd_of_mod_eq_zero hmod
      have := hmin d hd hdvd
      omega

theorem isPrime_iff (x : Nat) : isPrime (x : Int) = true ↔ x.Prime := by
  rcases Nat.lt_or_ge x 2 with hx | hx
  · rw [isPrime, if_pos (by exact_mod_cast Nat.le_of_lt_succ hx)]
    simp only [Bool.false_eq_true, false_iff]
    intro hp
    exact absurd hp.two_le (by omega)
  · rcases Nat.lt_or_ge x 4 with hx4 | hx4
    · have hx23 : x = 2 ∨ x = 3 := by omega
      rw [isPrime, if_neg (by exact_mod_cast (by omega : ¬ (x ≤ 1))), if_pos (by
        exact_mod_cast (by omega : x ≤ 3))]
      simp only [true_iff]
      rcases hx23 with h | h <;> subst h
      · exact Nat.prime_two
      · exact Nat.prime_three
    · have hc1 : ¬ ((x : Int) ≤ 1) := by exact_mod_cast (by omega : ¬ (x ≤ 1))
      have hc2 : ¬ ((x : Int) ≤ 3) := by exact_mod_cast (by omega : ¬ (x ≤ 3))
      have ht2 : (x : Int).tmod 2 = (x : Int) % 2 :=
        Int.tmod_eq_emod (by positivity) (by norm_num)
      have ht3 : (x : Int).tmod 3 = (x : Int) % 3 :=
        Int.tmod_eq_emod (by positivity) (by norm_num)
      rw [isPrime, if_neg hc1, if_neg hc2]
      by_cases hdvd : (x : Int).tmod 2 = 0 ∨ (x : Int).tmod 3 = 0
      · rw [if_pos hdvd]
        simp only [Bool.false_eq_true, false_iff]
        intro hp
        rcases hdvd with h | h
        · rw [ht2] at h
          have h2x : (2 : Nat) ∣ x := by omega
          have := (Nat.Prime.eq_one_or_self_of_dvd hp 2 h2x)
          omega
        · rw [ht3] at h
          have h3x : (3 : Nat) ∣ x := by omega
          have := (Nat.Prime.eq_one_or_self_of_dvd hp 3 h3x)
          omega
      · rw [if_neg hdvd]
        push_neg at hdvd
        rw [ht2, ht3] at hdvd
        have h2n : ¬ ((2 : Int) ∣ (x : Int)) := by
          intro h
          rcases h with ⟨c, hc⟩
          omega
        have h3n : ¬ ((3 : Int) ∣ (x : Int)) := by
          intro h
          rcases h with ⟨c, hc⟩
          omega
        rw [isPrimeLoop_spec (x : Int) (by exact_mod_cast (by omega : 5 ≤ x)) h2n h3n 5
          (by norm_num) (by norm_num)
          (by intro k hk2 hk5 hkdvd
              have hk4 : k = 2 ∨ k = 3 ∨ k = 4 := by omega
              rcases hk4 with h | h | h <;> subst h
              · exact h2n hkdvd
              · exact h3n hkdvd
              · exact h2n (dvd_trans (by norm_num) hkdvd))]
        rw [Nat.prime_def_le_sqrt]
        constructor
        · intro hloop
          refine ⟨hx, fun m hm2 hmsq => ?_⟩
          intro hdvd2
          have hmm : (m : Int) * (m : Int) ≤ (x : Int) := by
            exact_mod_cast Nat.le_sqrt.mp hmsq
          exact hloop (m : Int) (by exact_mod_cast hm2) hmm
            (by exact_mod_cast hdvd2)
        · intro ⟨hx2, hmin⟩ k hk2 hksq hkdvd
          have hk0 : 0 ≤ k := by omega
          obtain ⟨kN, rfl⟩ := Int.eq_ofNat_of_zero_le hk0
          have hdvdN : kN ∣ x := by exact_mod_cast hkdvd
          apply hmin kN (by exact_mod_cast hk2)
            (Nat.le_sqrt.mpr (by exact_mod_cast hksq))
          exact hdvdN

/-! ### The binary codec: `binaryToLong` and `longToBinary` -/

theorem natVal_foldl (t : List Nat) :
    ∀ acc : Nat, t.foldl (fun a c => 2 * a + (c - 48)) acc
      = acc * 2 ^ t.length + natVal t := by
  induction t with
  | nil =>
    intro acc
    simp [natVal]
  | cons c t ih =>
    intro acc
    rw [natVal]
    simp only [List.foldl_cons]
    rw [ih (2 * acc + (c - 48)), ih (2 * 0 + (c - 48))]
    simp only [List.length_cons]
    ring

theorem natVal_cons (c : Nat) (t : List Nat) :
    natVal (c :: t) = (c - 48) * 2 ^ t.length + natVal t := by
  rw [natVal]
  simp only [List.foldl_cons]
  have h := natVal_foldl t (2 * 0 + (c - 48))
  rw [h]
  ring

theorem natVal_lt (t : List Nat) (hbin : ∀ c ∈ t, c = 48 ∨ c = 49) :
    natVal t < 2 ^ t.length := by
  induction t with
  | nil => simp [natVal]
  | cons c t ih =>
    rw [natVal_cons, List.length_cons]
    have hb : c - 48 ≤ 1 := by
      rcases hbin c (List.mem_cons_self _ _) with h | h <;> omega
    have h1 : (c - 48) * 2 ^ t.length ≤ 1 * 2 ^ t.length :=
      Nat.mul_le_mul_right _ hb
    have h2 := ih (fun x hx => hbin x (List.mem_cons_of_mem c hx))
    have h3 : 2 ^ (t.length + 1) = 2 ^ t.length * 2 := pow_succ 2 t.length
    omega

theorem binaryToLong_eq (t : List Nat) (hbin : ∀ c ∈ t, c = 48 ∨ c = 49) :
    binaryToLong t = ((natVal t : Nat) : Int) := by
  suffices h : ∀ (t : List Nat), (∀ c ∈ t, c = 48 ∨ c = 49) → ∀ acc : Nat,
      t.foldl (fun (result : Int) (bit : Nat) =>
          Int.lor (result <<< (1 : Int)) ((bit : Int) - 48)) (acc : Int)
        = ((t.foldl (fun a c => 2 * a + (c - 48)) acc : Nat) : Int) by
    have h0 := h t hbin 0
    rw [binaryToLong, natVal]
    exact_mod_cast h0
  intro t
  induction t with
  | nil =>
    intro hbin acc
    simp
  | cons c t ih =>
    intro hbin acc
    simp only [List.foldl_cons]
    have hstep : Int.lor ((acc : Int) <<< (1 : Int)) ((c : Int) - 48)
        = ((2 * acc + (c - 48) : Nat) : Int) := by
      have hsh : ((acc : Int) <<< (1 : Int)) = ((acc <<< 1 : Nat) : Int) := by
        have h1 : ((acc : Int) <<< (1 : Int)) = ((Nat.shiftLeft' false acc 1 : Nat) : Int) := rfl
        rw [h1, Nat.shiftLeft'_false]
      rcases hbin c (List.mem_cons_self _ _) with hc | hc <;> subst hc
      · have hz : ((48 : Nat) : Int) - 48 = ((0 : Nat) : Int) := by norm_num
        rw [hsh, hz]
        have hlor : Int.lor ((acc <<< 1 : Nat) : Int) ((0 : Nat) : Int)
            = ((acc <<< 1 ||| 0 : Nat) : Int) := rfl
        rw [hlor]
        simp only [Nat.or_zero]
        rw [Nat.shiftLeft_eq]
        push_cast
        ring_nf
      · have hz : ((49 : Nat) : Int) - 48 = ((1 : Nat) : Int) := by norm_num
        rw [hsh, hz]
        have hlor : Int.lor ((acc <<< 1 : Nat) : Int) ((1 : Nat) : Int)
            = ((acc <<< 1 ||| 1 : Nat) : Int) := rfl
        rw [hlor]
        have hor : acc <<< 1 ||| 1 = 2 * acc + 1 := by
          rw [Nat.shiftLeft_eq]
          calc acc * 2 ^ 1 ||| 1 = 2 ^ 1 * acc ||| 1 := by rw [mul_comm]
            _ = 2 ^ 1 * acc + 1 := (Nat.mul_add_lt_is_or (by norm_num) acc).symm
            _ = 2 * acc + 1 := by norm_num
        rw [hor]
    rw [hstep, ih (fun x hx => hbin x (List.mem_cons_of_mem c hx))]

theorem natBits_length (k j : Nat) : (natBits k j).length = j := by
  induction j with
  | zero => rfl
  | succ j ih =>
    rw [natBits, List.length_cons, ih]

theorem natBits_binary (k j : Nat) : ∀ c ∈ natBits k j, c = 48 ∨ c = 49 := by
  induction j with
  | zero => intro c hc; simp [natBits] at hc
  | succ j ih =>
    intro c hc
    rw [natBits] at hc
    rcases List.mem_cons.mp hc with h | h
    · subst h
      split <;> omega
    · exact ih c h

theorem natVal_natBits (k j : Nat) : natVal (natBits k j) = k % 2 ^ j := by
  induction j with
  | zero =>
    simp [natBits, natVal]
    omega
  | succ j ih =>
    rw [natBits, natVal_cons, natBits_length, ih]
    have hmul : k % (2 ^ j * 2) = k % 2 ^ j + 2 ^ j * (k / 2 ^ j % 2) := Nat.mod_mul
    have hps : 2 ^ (j + 1) = 2 ^ j * 2 := pow_succ 2 j
    rcases Nat.mod_two_eq_zero_or_one (k / 2 ^ j) with hb | hb
    · rw [if_neg (by omega), hps, hmul, hb]
      omega
    · rw [if_pos hb, hps, hmul, hb]
      omega

theorem binary_ext (t1 : List Nat) :
    ∀ t2 : List Nat, (∀ c ∈ t1, c = 48 ∨ c = 49) → (∀ c ∈ t2, c = 48 ∨ c = 49) →
      t1.length = t2.length → natVal t1 = natVal t2 → t1 = t2 := by
  induction t1 with
  | nil =>
    intro t2 h1 h2 hlen hval
    cases t2 with
    | nil => rfl
    | cons c t => simp at hlen
  | cons c1 t1 ih =>
    intro t2 h1 h2 hlen hval
    cases t2 with
    | nil => simp at hlen
    | cons c2 t2 =>
      simp only [List.length_cons, Nat.add_right_cancel_iff] at hlen
      rw [natVal_cons, natVal_cons, hlen] at hval
      have hv1 : natVal t1 < 2 ^ t2.length := by
        rw [← hlen]
        exact natVal_lt t1 (fun x hx => h1 x (List.mem_cons_of_mem c1 hx))
      have hv2 : natVal t2 < 2 ^ t2.length :=
        natVal_lt t2 (fun x hx => h2 x (List.mem_cons_of_mem c2 hx))
      have hc12 : c1 = c2 ∧ natVal t1 = natVal t2 := by
        rcases h1 c1 (List.mem_cons_self _ _) with hc1 | hc1 <;>
          rcases h2 c2 (List.mem_cons_self _ _) with hc2 | hc2 <;>
            subst hc1 <;> subst hc2 <;>
              first
              | exact ⟨rfl, by omega⟩
              | (exfalso; omega)
      rw [hc12.1, ih t2 (fun x hx => h1 x (List.mem_cons_of_mem c1 hx))
        (fun x hx => h2 x (List.mem_cons_of_mem c2 hx)) hlen hc12.2]

theorem longToBinaryLoop_eq (k : Nat) :
    ∀ (j : Nat) (i : Int), i + 1 = (j : Int) → longToBinaryLoop (k : Int) i = natBits k j := by
  intro j
  induction j with
  | zero =>
    intro i hi
    rw [longToBinaryLoop, if_neg (by omega)]
    rfl
  | succ j ih =>
    intro i hi
    have hi' : i = (j : Int) := by omega
    subst hi'
    rw [longToBinaryLoop, if_pos (by positivity)]
    have hnb : natBits k (j + 1) = (if k / 2 ^ j % 2 = 1 then 49 else 48) :: natBits k j := rfl
    rw [hnb]
    congr 1
    · rw [Int.shiftRight_coe_nat, land_one_eq _ (by positivity), Nat.shiftRight_eq_div_pow]
      by_cases hb : k / 2 ^ j % 2 = 1
      · rw [if_pos hb, if_pos (by omega)]
      · rw [if_neg hb, if_neg (by omega)]
    · exact ih ((j : Int) - 1) (by ring)

theorem longToBinary_coe (k w : Nat) :
    longToBinary (k : Int) (w : Int) = natBits k w := by
  rw [longToBinary]
  exact longToBinaryLoop_eq k w ((w : Int) - 1) (by ring)

theorem longToBinaryLoop_length (num i : Int) :
    (longToBinaryLoop num i).length = (i + 1).toNat := by
  induction i using longToBinaryLoop.induct with
  | num => exact num
  | case1 i h ih =>
    rw [longToBinaryLoop, if_pos h, List.length_cons, ih]
    omega
  | case2 i h =>
    rw [longToBinaryLoop, if_neg h]
    simp only [List.length_nil]
    omega

theorem longToBinary_length (num bits : Int) :
    (longToBinary num bits).length = bits.toNat := by
  rw [longToBinary, longToBinaryLoop_length]
  omega

theorem longToBinaryLoop_binary (num i : Int) :
    ∀ c ∈ longToBinaryLoop num i, c = 48 ∨ c = 49 := by
  induction i using longToBinaryLoop.induct with
  | num => exact num
  | case1 i h ih =>
    intro c hc
    rw [longToBinaryLoop, if_pos h] at hc
    rcases List.mem_cons.mp hc with h2 | h2
    · subst h2
      split <;> omega
    · exact ih c h2
  | case2 i h =>
    intro c hc
    rw [longToBinaryLoop, if_neg h] at hc
    simp at hc

theorem longToBinary_binary (num bits : Int) :
    ∀ c ∈ longToBinary num bits, c = 48 ∨ c = 49 := by
  rw [longToBinary]
  exact longToBinaryLoop_binary num (bits - 1)

/-- Encoding a nonnegative value at width `w` and reading it back yields the
value reduced modulo `2 ^ w`. -/
theorem binaryToLong_longToBinary (v w : Nat) :
    binaryToLong (longToBinary (v : Int) (w : Int)) = ((v % 2 ^ w : Nat) : Int) := by
  rw [longToBinary_coe, binaryToLong_eq _ (natBits_binary v w), natVal_natBits]

/-- Reading a binary token and re-rendering it at its own width is the
identity. -/
theorem longToBinary_binaryToLong (t : List Nat) (hbin : ∀ c ∈ t, c = 48 ∨ c = 49) :
    longToBinary (binaryToLong t) (t.length : Int) = t := by
  rw [binaryToLong_eq t hbin, longToBinary_coe]
  exact binary_ext _ t (natBits_binary _ _) hbin (natBits_length _ _)
    (by rw [natVal_natBits]
        exact Nat.mod_eq_of_lt (natVal_lt t hbin))

/-! ### The tokenizer used by the decryption methods -/

theorem tokenize_nil : tokenize [] = [] := by
  rw [tokenize]

theorem tokenize_cons (c : Nat) (cs : List Nat) :
    tokenize (c :: cs) = if isSpaceByte c then tokenize cs
      else (c :: cs.takeWhile (fun b => ! isSpaceByte b)) ::
        tokenize (cs.dropWhile (fun b => ! isSpaceByte b)) := by
  rw [tokenize]

theorem takeWhile_append_of_all (p : Nat → Bool) (t r : List Nat)
    (h : ∀ c ∈ t, p c = true) : (t ++ r).takeWhile p = t ++ r.takeWhile p := by
  induction t with
  | nil => rfl
  | cons c t ih =>
    rw [List.cons_append, List.takeWhile_cons, if_pos (h c (List.mem_cons_self _ _)),
      ih (fun x hx => h x (List.mem_cons_of_mem c hx)), List.cons_append]

theorem dropWhile_append_of_all (p : Nat → Bool) (t r : List Nat)
    (h : ∀ c ∈ t, p c = true) : (t ++ r).dropWhile p = r.dropWhile p := by
  induction t with
  | nil => rfl
  | cons c t ih =>
    rw [List.cons_append, List.dropWhile_cons, if_pos (h c (List.mem_cons_self _ _)),
      ih (fun x hx => h x (List.mem_cons_of_mem c hx))]

theorem tokenize_ws_append (ws s : List Nat) (h : ∀ c ∈ ws, isSpaceByte c = true) :
    tokenize (ws ++ s) = tokenize s := by
  induction ws with
  | nil => rfl
  | cons c ws ih =>
    rw [List.cons_append, tokenize_cons, if_pos (h c (List.mem_cons_self _ _)),
      ih (fun x hx => h x (List.mem_cons_of_mem c hx))]

theorem tokenize_token_append (t r : List Nat) (hne : t ≠ [])
    (ht : ∀ c ∈ t, isSpaceByte c = false)
    (hr : r = [] ∨ ∃ c r2, r = c :: r2 ∧ isSpaceByte c = true) :
    tokenize (t ++ r) = t :: tokenize r := by
  cases t with
  | nil => exact absurd rfl hne
  | cons c t2 =>
    have hc : isSpaceByte c = false := ht c (List.mem_cons_self _ _)
    have ht2 : ∀ x ∈ t2, (fun b => ! isSpaceByte b) x = true := by
      intro x hx
      simp [ht x (List.mem_cons_of_mem c hx)]
    rw [List.cons_append, tokenize_cons, if_neg (by simp [hc])]
    have htake : (t2 ++ r).takeWhile (fun b => ! isSpaceByte b) = t2 := by
      rw [takeWhile_append_of_all _ t2 r ht2]
      rcases hr with rfl | ⟨c2, r2, rfl, hws⟩
      · simp
      · rw [List.takeWhile_cons, if_neg (by simp [hws])]
        simp
    have hdrop : (t2 ++ r).dropWhile (fun b => ! isSpaceByte b) = r := by
      rw [dropWhile_append_of_all _ t2 r ht2]
      rcases hr with rfl | ⟨c2, r2, rfl, hws⟩
      · simp
      · rw [List.dropWhile_cons, if_neg (by simp [hws])]
    rw [htake, hdrop]

theorem tokenize_wf (s : List Nat) :
    ∀ t ∈ tokenize s, t ≠ [] ∧ ∀ c ∈ t, isSpaceByte c = false := by
  induction s using tokenize.induct with
  | case1 =>
    rw [tokenize_nil]
    intro t ht
    simp at ht
  | case2 c cs hsp ih =>
    rw [tokenize_cons, if_pos hsp]
    exact ih
  | case3 c cs hsp ih =>
    rw [tokenize_cons, if_neg hsp]
    intro t ht
    rcases List.mem_cons.mp ht with h | h
    · subst h
      refine ⟨by simp, ?_⟩
      intro x hx
      rcases List.mem_cons.mp hx with h2 | h2
      · subst h2
        simpa using hsp
      · have := List.mem_takeWhile_imp h2
        simpa using this
    · exact ih t h

theorem tokenize_render :
    ∀ (pieces : List (List Nat × List Nat)) (lead : List Nat),
      (∀ c ∈ lead, isSpaceByte c = true) →
      (∀ pr ∈ pieces, pr.1 ≠ [] ∧ (∀ c ∈ pr.1, isSpaceByte c = false) ∧
        (∀ c ∈ pr.2, isSpaceByte c = true)) →
      (∀ pr ∈ pieces.dropLast, pr.2 ≠ []) →
      tokenize (renderPieces lead pieces) = pieces.map Prod.fst := by
  intro pieces
  induction pieces with
  | nil =>
    intro lead hlead hpieces hsep
    rw [renderPieces]
    simp only [List.map_nil, List.flatten_nil]
    rw [tokenize_ws_append lead [] hlead, tokenize_nil]
  | cons pr rest ih =>
    intro lead hlead hpieces hsep
    obtain ⟨t, w⟩ := pr
    have hgood := hpieces (t, w) (List.mem_cons_self _ _)
    rw [renderPieces, List.map_cons, List.flatten_cons]
    rw [tokenize_ws_append lead _ hlead]
    have hassoc : (t ++ w) ++ (rest.map (fun pr => pr.1 ++ pr.2)).flatten
        = t ++ (w ++ (rest.map (fun pr => pr.1 ++ pr.2)).flatten) := by
      rw [List.append_assoc]
    rw [hassoc]
    have hrest : tokenize (w ++ (rest.map (fun pr => pr.1 ++ pr.2)).flatten)
        = rest.map Prod.fst := by
      rw [tokenize_ws_append w _ hgood.2.2]
      have := ih [] (by intro c hc; simp at hc)
        (fun x hx => hpieces x (List.mem_cons_of_mem _ hx))
        (by intro x hx
            apply hsep
            cases rest with
            | nil => simp at hx
            | cons r1 rest2 =>
              rw [List.dropLast_cons₂]
              exact List.mem_cons_of_mem _ hx)
      rw [renderPieces] at this
      simpa using this
    rw [tokenize_token_append t _ hgood.1 hgood.2.1]
    · rw [hrest, List.map_cons]
    · -- the remainder is empty or starts with whitespace
      cases hw : w with
      | cons c w2 =>
        refine Or.inr ⟨c, w2 ++ (rest.map (fun pr => pr.1 ++ pr.2)).flatten, by simp, ?_⟩
        apply hgood.2.2
        rw [hw]
        exact List.mem_cons_self _ _
      | nil =>
        cases rest with
        | nil => simp
        | cons r1 rest2 =>
          exact absurd hw (hsep (t, w)
            (by rw [List.dropLast_cons₂]; exact List.mem_cons_self _ _))

theorem tokenize_joinTokens (toks : List (List Nat))
    (h : ∀ t ∈ toks, t ≠ [] ∧ ∀ c ∈ t, isSpaceByte c = false) :
    tokenize (joinTokens toks) = toks := by
  have hjoin : joinTokens toks = renderPieces [] (toks.map (fun t => (t, [32]))) := by
    rw [joinTokens, renderPieces, List.map_map]
    rfl
  rw [hjoin, tokenize_render (toks.map (fun t => (t, [32]))) []
    (by intro c hc; simp at hc)
    (by intro pr hpr
        obtain ⟨t, ht, rfl⟩ := List.mem_map.mp hpr
        refine ⟨(h t ht).1, (h t ht).2, ?_⟩
        intro c hc
        simp only [List.mem_singleton] at hc
        subst hc
        rfl)
    (by intro pr hpr
        have : pr ∈ toks.map (fun t => (t, [32])) := List.dropLast_subset _ hpr
        obtain ⟨t, ht, rfl⟩ := List.mem_map.mp this
        simp)]
  rw [List.map_map]
  have : (Prod.fst ∘ fun t : List Nat => (t, ([32] : List Nat))) = id := rfl
  rw [this, List.map_id]

/-! ### Decimal rendering and parsing -/

theorem decimalDigits_digits (k : Nat) : ∀ c ∈ decimalDigits k, 48 ≤ c ∧ c ≤ 57 := by
  intro c hc
  rw [decimalDigits] at hc
  split at hc
  · simp only [List.mem_singleton] at hc
    omega
  · obtain ⟨d, hd, rfl⟩ := List.mem_map.mp hc
    have hlt : d < 10 := Nat.digits_lt_base (by norm_num) (List.mem_reverse.mp hd)
    omega

theorem decimalDigits_ne_nil (k : Nat) : decimalDigits k ≠ [] := by
  rw [decimalDigits]
  split
  · simp
  · simp only [ne_eq, List.map_eq_nil_iff, List.reverse_eq_nil_iff]
    exact Nat.digits_ne_nil_iff_ne_zero.mpr (by assumption)

theorem not_ws_of_digit (c : Nat) (h : 40 ≤ c) : isSpaceByte c = false := by
  rw [isSpaceByte]
  simp only [decide_eq_false_iff_not]
  omega

theorem decimalChars_ne_nil (v : Int) : decimalChars v ≠ [] := by
  rw [decimalChars]
  split
  · simp
  · exact decimalDigits_ne_nil _

theorem decimalChars_not_ws (v : Int) : ∀ c ∈ decimalChars v, isSpaceByte c = false := by
  intro c hc
  rw [decimalChars] at hc
  split at hc
  · rcases List.mem_cons.mp hc with h | h
    · subst h
      rfl
    · exact not_ws_of_digit c (by have := (decimalDigits_digits _ c h).1; omega)
  · exact not_ws_of_digit c (by have := (decimalDigits_digits _ c hc).1; omega)

theorem foldl_digits_reverse (l : List Nat) :
    ∀ acc : Nat, l.reverse.foldl (fun a d => 10 * a + d) acc
      = acc * 10 ^ l.length + Nat.ofDigits 10 l := by
  induction l with
  | nil =>
    intro acc
    simp [Nat.ofDigits_nil]
  | cons d t ih =>
    intro acc
    rw [List.reverse_cons, List.foldl_append, ih acc]
    simp only [List.foldl_cons, List.foldl_nil, Nat.ofDigits_cons, List.length_cons]
    ring

theorem foldl_cast_digits (l : List Nat) :
    ∀ acc : Nat, l.foldl (fun (a : Int) (d : Nat) => 10 * a + (d : Int)) (acc : Int)
      = ((l.foldl (fun a d => 10 * a + d) acc : Nat) : Int) := by
  induction l with
  | nil => intro acc; simp
  | cons d t ih =>
    intro acc
    simp only [List.foldl_cons]
    rw [show ((10 : Int) * (acc : Int) + (d : Int)) = ((10 * acc + d : Nat) : Int) from by
      push_cast; ring]
    exact ih (10 * acc + d)

theorem parseDecimal_digits (tok : List Nat) (h : ∀ c ∈ tok, 48 ≤ c ∧ c ≤ 57)
    (hne : tok ≠ []) :
    parseDecimal tok
      = some (tok.foldl (fun (a : Int) (c : Nat) => 10 * a + ((c : Int) - 48)) 0) := by
  have htake : tok.takeWhile isDigitByte = tok :=
    List.takeWhile_eq_self_iff.mpr (by
      intro c hc
      rw [isDigitByte]
      simp only [decide_eq_true_eq]
      exact ⟨(h c hc).1, (h c hc).2⟩)
  cases tok with
  | nil => exact absurd rfl hne
  | cons c rest =>
    have hc := h c (List.mem_cons_self _ _)
    simp only [parseDecimal]
    rw [if_neg (by omega : ¬ c = 45), if_neg (by omega : ¬ c = 43)]
    simp only []
    rw [htake, if_neg hne, one_mul]

theorem parseDecimal_decimalDigits (k : Nat) :
    parseDecimal (decimalDigits k) = some ((k : Nat) : Int) := by
  rw [parseDecimal_digits (decimalDigits k) (decimalDigits_digits k) (decimalDigits_ne_nil k)]
  congr 1
  by_cases hk : k = 0
  · subst hk
    rfl
  · rw [decimalDigits, if_neg hk, List.foldl_map]
    have hfun : (fun (a : Int) (d : Nat) => 10 * a + (((48 + d : Nat) : Int) - 48))
        = fun (a : Int) (d : Nat) => 10 * a + (d : Int) := by
      funext a d
      push_cast
      ring
    rw [hfun]
    have h0 : ((0 : Nat) : Int) = (0 : Int) := rfl
    rw [← h0, foldl_cast_digits, foldl_digits_reverse]
    simp [Nat.ofDigits_digits]

/-! ### Structure of the two encrypted output formats -/

theorem encryptString_eq_joinTokens (e n : Int) (msg : List Nat) :
    encryptString e n msg
      = joinTokens (msg.map (fun (c : Nat) => decimalChars (encrypt e n (c : Int)))) := by
  rw [encryptString, joinTokens, List.map_map]
  rfl

theorem tokenize_encryptString (e n : Int) (msg : List Nat) :
    tokenize (encryptString e n msg)
      = msg.map (fun (c : Nat) => decimalChars (encrypt e n (c : Int))) := by
  rw [encryptString_eq_joinTokens, tokenize_joinTokens]
  intro t ht
  obtain ⟨c, hc, rfl⟩ := List.mem_map.mp ht
  exact ⟨decimalChars_ne_nil _, decimalChars_not_ws _⟩

theorem encryptHuffmanCodes_eq_joinTokens (e n : Int) (s : List Nat) :
    encryptHuffmanCodes e n s = joinTokens ((tokenize s).map (fun tok =>
      longToBinary (encrypt e n (binaryToLong tok)) (tok.length : Int))) := by
  rw [encryptHuffmanCodes, joinTokens, List.map_map]
  rfl

theorem decryptHuffmanCodes_eq_joinTokens (d n : Int) (s : List Nat) :
    decryptHuffmanCodes d n s = joinTokens ((tokenize s).map (fun tok =>
      longToBinary (decrypt d n (binaryToLong tok)) (tok.length : Int))) := by
  rw [decryptHuffmanCodes, joinTokens, List.map_map]
  rfl

theorem tokenize_encryptHuffmanCodes (e n : Int) (s : List Nat) :
    tokenize (encryptHuffmanCodes e n s) = (tokenize s).map (fun tok =>
      longToBinary (encrypt e n (binaryToLong tok)) (tok.length : Int)) := by
  rw [encryptHuffmanCodes_eq_joinTokens, tokenize_joinTokens]
  intro t ht
  obtain ⟨tok, htok, rfl⟩ := List.mem_map.mp ht
  have hwf := tokenize_wf s tok htok
  constructor
  · have hlen : (longToBinary (encrypt e n (binaryToLong tok)) (tok.length : Int)).length
        = tok.length := by
      rw [longToBinary_length]
      simp
    intro hnil
    rw [hnil] at hlen
    simp only [List.length_nil] at hlen
    cases tok with
    | nil => exact hwf.1 rfl
    | cons c t2 => simp at hlen
  · intro c hc
    rcases longToBinary_binary _ _ c hc with h | h <;> subst h <;> rfl

/-! ### Round trips of the string facade -/

theorem decryptString_token (e n d : Int) (c : Nat) (hc : c < 256)
    (hround : decrypt d n (encrypt e n (c : Int)) = (c : Int)) :
    (parseDecimal (decimalChars (encrypt e n (c : Int)))).map
      (fun num => ((decrypt d n num) % 256).toNat) = some c := by
  have henc : 0 ≤ encrypt e n (c : Int) := modPow_nonneg _ _ _ (by positivity)
  rw [decimalChars, if_neg (by omega), parseDecimal_decimalDigits,
    Int.toNat_of_nonneg henc]
  rw [Option.map_some']
  congr 1
  rw [hround, Int.emod_eq_of_lt (by positivity) (by exact_mod_cast hc)]
  simp

theorem decryptString_encryptString (e n d : Int) (msg : List Nat)
    (hbytes : ∀ c ∈ msg, c < 256)
    (hround : ∀ c ∈ msg, decrypt d n (encrypt e n (c : Int)) = (c : Int)) :
    decryptString d n (encryptString e n msg) = some msg := by
  rw [decryptString, tokenize_encryptString]
  induction msg with
  | nil => rfl
  | cons c msg ih =>
    rw [List.map_cons, List.mapM_cons]
    rw [decryptString_token e n d c (hbytes c (List.mem_cons_self _ _))
      (hround c (List.mem_cons_self _ _))]
    rw [ih (fun x hx => hbytes x (List.mem_cons_of_mem c hx))
      (fun x hx => hround x (List.mem_cons_of_mem c hx))]
    rfl

theorem decryptHuffmanCodes_encryptHuffmanCodes (e n d : Int) (s : List Nat)
    (hbin : ∀ t ∈ tokenize s, ∀ c ∈ t, c = 48 ∨ c = 49)
    (hfit : ∀ t ∈ tokenize s, encrypt e n (binaryToLong t) < 2 ^ t.length)
    (hround : ∀ t ∈ tokenize s,
      decrypt d n (encrypt e n (binaryToLong t)) = binaryToLong t) :
    decryptHuffmanCodes d n (encryptHuffmanCodes e n s) = joinTokens (tokenize s) := by
  rw [decryptHuffmanCodes, tokenize_encryptHuffmanCodes, List.map_map, joinTokens]
  congr 1
  apply List.map_congr_left
  intro t ht
  simp only [Function.comp]
  have hval : binaryToLong t = ((natVal t : Nat) : Int) := binaryToLong_eq t (hbin t ht)
  have henc0 : 0 ≤ encrypt e n (binaryToLong t) :=
    modPow_nonneg _ _ _ (by rw [hval]; positivity)
  -- name the encrypted value as a natural number
  obtain ⟨E, hE⟩ := Int.eq_ofNat_of_zero_le henc0
  have hlenw : (longToBinary (encrypt e n (binaryToLong t)) (t.length : Int)).length
      = t.length := by
    rw [longToBinary_length]
    simp
  rw [hlenw, hE, longToBinary_coe]
  have hfitE : E < 2 ^ t.length := by
    have := hfit t ht
    rw [hE] at this
    exact_mod_cast this
  have hb2l : binaryToLong (natBits E t.length) = (E : Int) := by
    rw [binaryToLong_eq _ (natBits_binary _ _), natVal_natBits, Nat.mod_eq_of_lt hfitE]
  rw [hb2l, ← hE, hround t ht, longToBinary_binaryToLong t (hbin t ht)]

/-! ### Concrete evaluations used by the witnesses and counterexamples -/

theorem modInverse_65537_10200 : modInverse 65537 10200 = some 10073 := by
  rw [modInverse, if_neg (by norm_num)]
  repeat (rw [modInverseLoop]; norm_num [Int.tmod_eq_emod, Int.tdiv_eq_ediv])

theorem modInverse_65537_10000 : modInverse 65537 10000 = some 3473 := by
  rw [modInverse, if_neg (by norm_num)]
  repeat (rw [modInverseLoop]; norm_num [Int.tmod_eq_emod, Int.tdiv_eq_ediv])

theorem dVal_101_103 : dVal 101 103 = some 10073 := by
  have h : phiVal 101 103 = 10200 := by
    rw [phiVal]
    norm_num
  rw [dVal, eVal, h]
  exact modInverse_65537_10200

theorem dVal_101_101 : dVal 101 101 = some 3473 := by
  have h : phiVal 101 101 = 10000 := by
    rw [phiVal]
    norm_num
  rw [dVal, eVal, h]
  exact modInverse_65537_10000

theorem nVal_101_103 : nVal 101 103 = 10403 := by
  rw [nVal]
  norm_num

theorem nVal_101_101 : nVal 101 101 = 10201 := by
  rw [nVal]
  norm_num

theorem encrypt_zero (e n : Int) (he : 0 < e) (hn : 0 < n) : encrypt e n 0 = 0 := by
  rw [encrypt, modPow_eq 0 e n he le_rfl hn, zero_pow (by omega : e.toNat ≠ 0),
    Int.zero_emod]

theorem decrypt_zero (d n : Int) (hd : 0 < d) (hn : 0 < n) : decrypt d n 0 = 0 := by
  rw [decrypt, modPow_eq 0 d n hd le_rfl hn, zero_pow (by omega : d.toNat ≠ 0),
    Int.zero_emod]

theorem encrypt_one (e n : Int) (he : 0 < e) (hn : 1 < n) : encrypt e n 1 = 1 := by
  rw [encrypt, modPow_eq 1 e n he (by norm_num) (by omega), one_pow,
    Int.emod_eq_of_lt (by norm_num) hn]

theorem encrypt_101_sq : encrypt eVal (nVal 101 101) 101 = 0 := by
  rw [nVal_101_101, encrypt, eVal,
    modPow_eq 101 65537 10201 (by norm_num) (by norm_num) (by norm_num)]
  have hdvd : (10201 : Int) ∣ 101 ^ ((65537 : Int)).toNat := by
    have h2 : (10201 : Int) = 101 ^ 2 := by norm_num
    rw [h2, show ((65537 : Int)).toNat = 65537 from rfl]
    exact pow_dvd_pow 101 (by norm_num)
  exact Int.emod_eq_zero_of_dvd hdvd

theorem tokenize_zero_sp : tokenize [48, 32] = [[48]] := by
  norm_num [tokenize_cons, tokenize_nil, isSpaceByte]

theorem tokenize_zero : tokenize [48] = [[48]] := by
  norm_num [tokenize_cons, tokenize_nil, isSpaceByte]

theorem tokenize_pair01 : tokenize [48, 49] = [[48, 49]] := by
  norm_num [tokenize_cons, tokenize_nil, isSpaceByte]

/-! ### The claims -/

/-- C1.  As stated the claim quantifies over every pair of primes `p, q` in
`[100, 1000)` with `gcd(65537, (p-1)(q-1)) = 1`; the pair `p = q = 101`
satisfies all of that and breaks the round trip (see the counterexample), so
the claim holds once the two primes are required to be distinct: for every
such pair with `p ≠ q`, the keypair `n = p*q`, `e = 65537`,
`d = modInverse(e, phi)` satisfies `decrypt (encrypt m) = m` for every
`m` in `[0, p*q)`. -/
theorem C1_decrypt_encrypt_roundtrip (p q : Nat) (hp : Nat.Prime p) (hq : Nat.Prime q)
    (hp1 : 100 ≤ p) (hp2 : p < 1000) (hq1 : 100 ≤ q) (hq2 : q < 1000) (hpq : p ≠ q)
    (hgcd : Nat.gcd 65537 ((p - 1) * (q - 1)) = 1)
    (d : Int) (hd : dVal (p : Int) (q : Int) = some d)
    (m : Int) (hm0 : 0 ≤ m) (hm : m < nVal (p : Int) (q : Int)) :
    decrypt d (nVal (p : Int) (q : Int)) (encrypt eVal (nVal (p : Int) (q : Int)) m) = m :=
  rsa_roundtrip p q hp hq hpq hgcd d hd m hm0 hm

/-- C1, witness: the keypair built from `p = 101`, `q = 103` round-trips
`m = 42`. -/
theorem C1_witness :
    Nat.Prime 101 ∧ Nat.Prime 103 ∧ 100 ≤ 101 ∧ 101 < 1000 ∧ 100 ≤ 103 ∧ 103 < 1000 ∧
    (101 : Nat) ≠ 103 ∧ Nat.gcd 65537 ((101 - 1) * (103 - 1)) = 1 ∧
    dVal ((101 : Nat) : Int) ((103 : Nat) : Int) = some 10073 ∧
    (0 : Int) ≤ 42 ∧ (42 : Int) < nVal ((101 : Nat) : Int) ((103 : Nat) : Int) ∧
    decrypt 10073 (nVal ((101 : Nat) : Int) ((103 : Nat) : Int))
      (encrypt eVal (nVal ((101 : Nat) : Int) ((103 : Nat) : Int)) 42) = 42 := by
  have hd : dVal ((101 : Nat) : Int) ((103 : Nat) : Int) = some 10073 := by
    have h1 : ((101 : Nat) : Int) = (101 : Int) := by norm_num
    have h2 : ((103 : Nat) : Int) = (103 : Int) := by norm_num
    rw [h1, h2]
    exact dVal_101_103
  have hn : nVal ((101 : Nat) : Int) ((103 : Nat) : Int) = 10403 := by
    have h1 : ((101 : Nat) : Int) = (101 : Int) := by norm_num
    have h2 : ((103 : Nat) : Int) = (103 : Int) := by norm_num
    rw [h1, h2]
    exact nVal_101_103
  refine ⟨by norm_num, by norm_num, by norm_num, by norm_num, by norm_num, by norm_num,
    by norm_num, by decide, hd, by norm_num, by rw [hn]; norm_num, ?_⟩
  exact C1_decrypt_encrypt_roundtrip 101 103 (by norm_num) (by norm_num) (by norm_num)
    (by norm_num) (by norm_num) (by norm_num) (by norm_num) (by decide)
    10073 hd 42 (by norm_num) (by rw [hn]; norm_num)

/-- C1, counterexample: `p = q = 101` is a pair of primes in the stated range
with `gcd(65537, (p-1)(q-1)) = 1`, yet the keypair built from it maps the
plaintext `101` to `0` and back to `0`, not `101`. -/
theorem C1_counterexample :
    Nat.Prime 101 ∧ 100 ≤ 101 ∧ 101 < 1000 ∧
    Nat.gcd 65537 ((101 - 1) * (101 - 1)) = 1 ∧
    dVal ((101 : Nat) : Int) ((101 : Nat) : Int) = some 3473 ∧
    (0 : Int) ≤ 101 ∧ (101 : Int) < nVal ((101 : Nat) : Int) ((101 : Nat) : Int) ∧
    decrypt 3473 (nVal ((101 : Nat) : Int) ((101 : Nat) : Int))
      (encrypt eVal (nVal ((101 : Nat) : Int) ((101 : Nat) : Int)) 101) = 0 ∧
    ¬ decrypt 3473 (nVal ((101 : Nat) : Int) ((101 : Nat) : Int))
      (encrypt eVal (nVal ((101 : Nat) : Int) ((101 : Nat) : Int)) 101) = 101 := by
  have h1 : ((101 : Nat) : Int) = (101 : Int) := by norm_num
  have hval : decrypt 3473 (nVal ((101 : Nat) : Int) ((101 : Nat) : Int))
      (encrypt eVal (nVal ((101 : Nat) : Int) ((101 : Nat) : Int)) 101) = 0 := by
    rw [h1, encrypt_101_sq, nVal_101_101]
    exact decrypt_zero 3473 10201 (by norm_num) (by norm_num)
  refine ⟨by norm_num, by norm_num, by norm_num, by decide, ?_, by norm_num, ?_, hval, ?_⟩
  · rw [h1]
    exact dVal_101_101
  · rw [h1, nVal_101_101]
    norm_num
  · rw [hval]
    norm_num

/-- C2.  As stated the claim fails at `mod = 1` with `exp = 0` (the code
returns `1`, which is neither `b^0 mod 1 = 0` nor `< 1`) and at negative
bases (C++ truncated remainders propagate the sign).  Amended: for every
`base ≥ 0` and `mod > 0`, `modPow` computes `base ^ exp mod mod` whenever
`exp > 0`, returns `1` whenever `exp ≤ 0`, is nonnegative, and is `< mod`
whenever `mod > 1` or `exp > 0`. -/
theorem C2_modPow_spec (b e m : Int) (hb : 0 ≤ b) (hm : 0 < m) :
    (0 < e → modPow b e m = b ^ e.toNat % m) ∧
    (e ≤ 0 → modPow b e m = 1) ∧
    0 ≤ modPow b e m ∧
    (1 < m ∨ 0 < e → modPow b e m < m) :=
  ⟨fun he => modPow_eq b e m he hb hm, modPow_of_nonpos b e m,
    modPow_nonneg b e m hb, modPow_lt b e m hb hm⟩

/-- C2, witness: the specification instantiated at `modPow 7 13 11`. -/
theorem C2_witness :
    (0 : Int) ≤ 7 ∧ (0 : Int) < 11 ∧
    ((0 < (13 : Int) → modPow 7 13 11 = 7 ^ ((13 : Int)).toNat % 11) ∧
     ((13 : Int) ≤ 0 → modPow 7 13 11 = 1) ∧
     0 ≤ modPow 7 13 11 ∧
     (1 < (11 : Int) ∨ 0 < (13 : Int) → modPow 7 13 11 < 11)) :=
  ⟨by norm_num, by norm_num, C2_modPow_spec 7 13 11 (by norm_num) (by norm_num)⟩

/-- C2, counterexample: `modPow 5 0 1 = 1`, which is not `< 1` and is not
`5^0 mod 1 = 0`, and `modPow (-3) 1 5 = -3 ≠ (-3)^1 mod 5 = 2`. -/
theorem C2_counterexample :
    modPow 5 0 1 = 1 ∧ ¬ modPow 5 0 1 < 1 ∧
    ¬ modPow 5 0 1 = 5 ^ ((0 : Int)).toNat % 1 ∧
    modPow (-3) 1 5 = -3 ∧ ¬ modPow (-3) 1 5 = (-3) ^ ((1 : Int)).toNat % 5 := by
  have h1 : modPow 5 0 1 = 1 := modPow_of_nonpos 5 0 1 (by norm_num)
  have h2 : modPow (-3) 1 5 = -3 := by
    rw [modPow, modPowLoop, if_pos (by norm_num), modPowLoop,
      if_neg (by decide), if_pos (by decide)]
    decide
  refine ⟨h1, by rw [h1]; norm_num, by rw [h1]; decide, h2, by rw [h2]; decide⟩

/-- C3: `isPrime` returns false for every `x ≤ 1`, true for `2` and `3`, and
agrees with the trial-division oracle `trialPrime` on `[0, 10000]`. -/
theorem C3_isPrime_correct :
    (∀ x : Int, x ≤ 1 → isPrime x = false) ∧
    isPrime 2 = true ∧ isPrime 3 = true ∧
    (∀ x : Nat, x ≤ 10000 → isPrime (x : Int) = trialPrime x) := by
  refine ⟨?_, by decide, by decide, ?_⟩
  · intro x hx
    rw [isPrime, if_pos hx]
  · intro x hx
    by_cases h : x.Prime
    · rw [(isPrime_iff x).mpr h, (trialPrime_iff x).mpr h]
    · have h1 : isPrime (x : Int) = false := by
        rcases Bool.eq_false_or_eq_true (isPrime (x : Int)) with hb | hb
        · exact absurd ((isPrime_iff x).mp hb) h
        · exact hb
      have h2 : trialPrime x = false := by
        rcases Bool.eq_false_or_eq_true (trialPrime x) with hb | hb
        · exact absurd ((trialPrime_iff x).mp hb) h
        · exact hb
      rw [h1, h2]

/-- C3, witness: the three clauses at `x = -5`, `x = 2/3` and `x = 9973`. -/
theorem C3_witness :
    ((-5 : Int) ≤ 1 ∧ isPrime (-5) = false) ∧
    (9973 ≤ 10000 ∧ isPrime ((9973 : Nat) : Int) = trialPrime 9973) :=
  ⟨⟨by norm_num, C3_isPrime_correct.1 (-5) (by norm_num)⟩,
   ⟨by norm_num, C3_isPrime_correct.2.2.2 9973 (by norm_num)⟩⟩

/-- C4.  As stated the claim quantifies over every `a`, but for negative `a`
(e.g. `a = -3`, `m = 5`) the loop is skipped and the returned value is not an
inverse (see the counterexample).  Amended: for every `a ≥ 1` and `m > 1`
with `gcd(a, m) = 1`, `modInverse a m` returns `r` with `0 ≤ r < m` and
`a * r ≡ 1 (mod m)`; and `modInverse a 1 = 0` for every `a`. -/
theorem C4_modInverse_spec :
    (∀ a m : Int, 1 ≤ a → 1 < m → Int.gcd a m = 1 →
      ∃ r, modInverse a m = some r ∧ 0 ≤ r ∧ r < m ∧ a * r % m = 1 % m) ∧
    (∀ a : Int, modInverse a 1 = some 0) :=
  ⟨modInverse_spec, fun a => by rw [modInverse, if_pos rfl]⟩

/-- C4, witness: the inverse clause at `(a, m) = (3, 5)` and the `m = 1`
clause at `a = 7`. -/
theorem C4_witness :
    (1 ≤ (3 : Int) ∧ 1 < (5 : Int) ∧ Int.gcd 3 5 = 1 ∧
      ∃ r, modInverse 3 5 = some r ∧ 0 ≤ r ∧ r < 5 ∧ 3 * r % 5 = 1 % 5) ∧
    modInverse 7 1 = some 0 :=
  ⟨⟨by norm_num, by norm_num, by decide,
    C4_modInverse_spec.1 3 5 (by norm_num) (by norm_num) (by decide)⟩,
   C4_modInverse_spec.2 7⟩

/-- C4, counterexample: `gcd(-3, 5) = 1` and `5 > 1`, but
`modInverse (-3) 5 = 1` and `(-3) * 1` is not `1` modulo `5`. -/
theorem C4_counterexample :
    Int.gcd (-3) 5 = 1 ∧ 1 < (5 : Int) ∧ modInverse (-3) 5 = some 1 ∧
    ¬ ((-3) * 1 % (5 : Int) = 1 % 5) := by
  refine ⟨by decide, by norm_num, ?_, by decide⟩
  rw [modInverse, if_neg (by norm_num), modInverseLoop, if_neg (by norm_num)]
  rfl

/-- C5.  As stated the claim says `modInverse` terminates on every input
pair, even when `gcd(a, m) ≠ 1`.  In fact on `(a, m) = (4, 2)` the loop
reaches the state `a = 2, m = 0` and the C++ divides by zero (the `none` of
the embedding), so it does not return a value.  Amended: `modInverse a m`
returns a value whenever `a ≤ 1`, or `m = 1`, or the inputs are nonnegative
and coprime; when `gcd(a, m) ≠ 1` it can instead hit division by zero. -/
theorem C5_modInverse_terminates (a m : Int)
    (h : a ≤ 1 ∨ m = 1 ∨ (1 ≤ a ∧ 0 ≤ m ∧ Int.gcd a m = 1)) :
    (modInverse a m).isSome = true :=
  modInverse_isSome a m h

/-- C5, witness: `modInverse 6 35` returns a value. -/
theorem C5_witness :
    ((6 : Int) ≤ 1 ∨ (35 : Int) = 1 ∨
      (1 ≤ (6 : Int) ∧ 0 ≤ (35 : Int) ∧ Int.gcd 6 35 = 1)) ∧
    (modInverse 6 35).isSome = true := by
  have h : (6 : Int) ≤ 1 ∨ (35 : Int) = 1 ∨
      (1 ≤ (6 : Int) ∧ 0 ≤ (35 : Int) ∧ Int.gcd 6 35 = 1) :=
    Or.inr (Or.inr ⟨by norm_num, by norm_num, by decide⟩)
  exact ⟨h, C5_modInverse_terminates 6 35 h⟩

/-- C5, counterexample: on `(a, m) = (4, 2)` (where `gcd = 2 ≠ 1`) the loop
divides by zero instead of returning a value. -/
theorem C5_counterexample :
    modInverse 4 2 = none ∧ (modInverse 4 2).isSome = false := by
  have h : modInverse 4 2 = none := by
    rw [modInverse, if_neg (by norm_num)]
    repeat (rw [modInverseLoop]; norm_num [Int.tmod_eq_emod, Int.tdiv_eq_ediv])
  exact ⟨h, by rw [h]; rfl⟩

/-- Primes drawn in `[100, 1000)` are at least 101 (100 is composite). -/
theorem prime_ge_101 (p : Nat) (hp : Nat.Prime p) (h100 : 100 ≤ p) : 101 ≤ p := by
  rcases Nat.lt_or_ge p 101 with h | h
  · exfalso
    have hp100 : p = 100 := by omega
    rw [hp100] at hp
    exact absurd hp (by norm_num)
  · exact h

/-- C6.  As stated the claim asks only for a "valid keypair"
(`gcd(e, phi) = 1`); the keypair drawn from `p = q = 101` satisfies that and
breaks the round trip on the one-character string `"e"` (code 101, a multiple
of `p`) — see the counterexample.  Amended: for a keypair built from two
*distinct* primes of the sampled range with `gcd(65537, phi) = 1`,
`decryptString (encryptString s) = s` for every string `s` of bytes
(every byte is `< 256 ≤ n`, so the claim's `code < n` hypothesis is
automatic). -/
theorem C6_string_roundtrip (p q : Nat) (hp : Nat.Prime p) (hq : Nat.Prime q)
    (hp1 : 100 ≤ p) (hp2 : p < 1000) (hq1 : 100 ≤ q) (hq2 : q < 1000) (hpq : p ≠ q)
    (hgcd : Nat.gcd 65537 ((p - 1) * (q - 1)) = 1)
    (d : Int) (hd : dVal (p : Int) (q : Int) = some d)
    (msg : List Nat) (hbytes : ∀ c ∈ msg, c < 256) :
    decryptString d (nVal (p : Int) (q : Int))
      (encryptString eVal (nVal (p : Int) (q : Int)) msg) = some msg := by
  apply decryptString_encryptString eVal _ d msg hbytes
  intro c hc
  have hp101 : 101 ≤ p := prime_ge_101 p hp hp1
  have hq101 : 101 ≤ q := prime_ge_101 q hq hq1
  apply rsa_roundtrip p q hp hq hpq hgcd d hd (c : Int) (by positivity)
  rw [nVal]
  have h1 : ((p * q : Nat) : Int) = (p : Int) * (q : Int) := by push_cast; ring
  rw [← h1]
  have h2 : c < p * q :=
    lt_of_lt_of_le (hbytes c hc) (le_trans (by norm_num) (Nat.mul_le_mul hp101 hq101))
  exact_mod_cast h2

/-- C6, witness: the keypair from `p = 101`, `q = 103` round-trips the
string `"Hello"`. -/
theorem C6_witness :
    Nat.Prime 101 ∧ Nat.Prime 103 ∧ (101 : Nat) ≠ 103 ∧
    Nat.gcd 65537 ((101 - 1) * (103 - 1)) = 1 ∧
    dVal ((101 : Nat) : Int) ((103 : Nat) : Int) = some 10073 ∧
    (∀ c ∈ [72, 101, 108, 108, 111], c < 256) ∧
    decryptString 10073 (nVal ((101 : Nat) : Int) ((103 : Nat) : Int))
      (encryptString eVal (nVal ((101 : Nat) : Int) ((103 : Nat) : Int))
        [72, 101, 108, 108, 111]) = some [72, 101, 108, 108, 111] := by
  have hd : dVal ((101 : Nat) : Int) ((103 : Nat) : Int) = some 10073 := by
    rw [show ((101 : Nat) : Int) = (101 : Int) from by norm_num,
      show ((103 : Nat) : Int) = (103 : Int) from by norm_num]
    exact dVal_101_103
  refine ⟨by norm_num, by norm_num, by norm_num, by decide, hd, by decide, ?_⟩
  exact C6_string_roundtrip 101 103 (by norm_num) (by norm_num) (by norm_num)
    (by norm_num) (by norm_num) (by norm_num) (by norm_num) (by decide)
    10073 hd [72, 101, 108, 108, 111] (by decide)

/-- C6, counterexample: `p = q = 101` gives a keypair with
`gcd(e, phi) = 1` and `n = 10201 > 255`, yet the string `"e"` (one byte,
code 101 `< n`) decrypts to the NUL byte, not back to `"e"`. -/
theorem C6_counterexample :
    Nat.Prime 101 ∧ Nat.gcd 65537 ((101 - 1) * (101 - 1)) = 1 ∧
    dVal 101 101 = some 3473 ∧
    (101 : Nat) < 256 ∧ (101 : Int) < nVal 101 101 ∧
    decryptString 3473 (nVal 101 101) (encryptString eVal (nVal 101 101) [101])
      = some [0] ∧
    ¬ decryptString 3473 (nVal 101 101) (encryptString eVal (nVal 101 101) [101])
      = some [101] := by
  have henc : encryptString eVal (nVal 101 101) [101] = [48, 32] := by
    rw [encryptString]
    simp only [List.map_cons, List.map_nil, List.flatten_cons, List.flatten_nil,
      List.append_nil]
    rw [show ((101 : Nat) : Int) = (101 : Int) from by norm_num, encrypt_101_sq]
    rfl
  have hdec : decryptString 3473 (nVal 101 101) [48, 32] = some [0] := by
    rw [decryptString, tokenize_zero_sp]
    have hp48 : parseDecimal [48] = some 0 := rfl
    have hd0 : decrypt 3473 (nVal 101 101) 0 = 0 := by
      rw [nVal_101_101]
      exact decrypt_zero 3473 10201 (by norm_num) (by norm_num)
    simp [List.mapM, List.mapM.loop, hp48, hd0]
  refine ⟨by norm_num, by decide, dVal_101_101, by norm_num,
    by rw [nVal_101_101]; norm_num, ?_, ?_⟩
  · rw [henc, hdec]
  · rw [henc, hdec]
    simp

/-- C7.  Two corrections are forced.  First, even on inputs satisfying every
stated hypothesis the output is not literally `codes`: the decrypt method
re-joins tokens with single spaces and a trailing space, so e.g. `"0"` comes
back as `"0 "` (see the counterexample).  Second, as in C1/C6 the keypair
must come from two distinct primes.  Amended: under those hypotheses,
`decryptHuffmanCodes (encryptHuffmanCodes codes)` equals the canonical
re-serialisation of the tokens of `codes` (each token followed by one
space), which equals `codes` exactly when `codes` is already in that
form. -/
theorem C7_huffman_roundtrip (p q : Nat) (hp : Nat.Prime p) (hq : Nat.Prime q)
    (hp1 : 100 ≤ p) (hp2 : p < 1000) (hq1 : 100 ≤ q) (hq2 : q < 1000) (hpq : p ≠ q)
    (hgcd : Nat.gcd 65537 ((p - 1) * (q - 1)) = 1)
    (d : Int) (hd : dVal (p : Int) (q : Int) = some d) (s : List Nat)
    (hbin : ∀ t ∈ tokenize s, ∀ c ∈ t, c = 48 ∨ c = 49)
    (hlt : ∀ t ∈ tokenize s, binaryToLong t < nVal (p : Int) (q : Int))
    (hfit : ∀ t ∈ tokenize s,
      encrypt eVal (nVal (p : Int) (q : Int)) (binaryToLong t) < 2 ^ t.length) :
    decryptHuffmanCodes d (nVal (p : Int) (q : Int))
      (encryptHuffmanCodes eVal (nVal (p : Int) (q : Int)) s)
      = joinTokens (tokenize s) := by
  apply decryptHuffmanCodes_encryptHuffmanCodes _ _ _ _ hbin hfit
  intro t ht
  have hv : binaryToLong t = ((natVal t : Nat) : Int) := binaryToLong_eq t (hbin t ht)
  exact rsa_roundtrip p q hp hq hpq hgcd d hd (binaryToLong t)
    (by rw [hv]; positivity) (hlt t ht)

/-- C7, witness: with the keypair from `p = 101`, `q = 103`, the code string
`"0"` encrypts and decrypts back to its canonical serialisation `"0 "`. -/
theorem C7_witness :
    Nat.Prime 101 ∧ Nat.Prime 103 ∧ (101 : Nat) ≠ 103 ∧
    Nat.gcd 65537 ((101 - 1) * (103 - 1)) = 1 ∧
    dVal ((101 : Nat) : Int) ((103 : Nat) : Int) = some 10073 ∧
    decryptHuffmanCodes 10073 (nVal ((101 : Nat) : Int) ((103 : Nat) : Int))
      (encryptHuffmanCodes eVal (nVal ((101 : Nat) : Int) ((103 : Nat) : Int)) [48])
      = joinTokens (tokenize [48]) := by
  have hc1 : ((101 : Nat) : Int) = (101 : Int) := by norm_num
  have hc2 : ((103 : Nat) : Int) = (103 : Int) := by norm_num
  have hd : dVal ((101 : Nat) : Int) ((103 : Nat) : Int) = some 10073 := by
    rw [hc1, hc2]
    exact dVal_101_103
  have hn : nVal ((101 : Nat) : Int) ((103 : Nat) : Int) = 10403 := by
    rw [hc1, hc2]
    exact nVal_101_103
  refine ⟨by norm_num, by norm_num, by norm_num, by decide, hd, ?_⟩
  apply C7_huffman_roundtrip 101 103 (by norm_num) (by norm_num) (by norm_num)
    (by norm_num) (by norm_num) (by norm_num) (by norm_num) (by decide) 10073 hd [48]
  · rw [tokenize_zero]
    decide
  · rw [tokenize_zero, hn]
    intro t ht
    simp only [List.mem_singleton] at ht
    subst ht
    decide
  · rw [tokenize_zero, hn]
    intro t ht
    simp only [List.mem_singleton] at ht
    subst ht
    rw [show binaryToLong [48] = 0 from rfl,
      encrypt_zero eVal 10403 (by rw [eVal]; norm_num) (by norm_num)]
    decide

/-- C7, counterexample: with the valid keypair from `p = 101`, `q = 103`,
the code string `"0"` satisfies every hypothesis of the claim (binary token,
value `0 < n`, encrypted value `0` fits in 1 bit), yet the round trip
returns `"0 "` (trailing space), not `"0"`. -/
theorem C7_counterexample :
    Nat.Prime 101 ∧ Nat.Prime 103 ∧ Nat.gcd 65537 ((101 - 1) * (103 - 1)) = 1 ∧
    dVal 101 103 = some 10073 ∧
    tokenize [48] = [[48]] ∧
    binaryToLong [48] < nVal 101 103 ∧
    encrypt eVal (nVal 101 103) (binaryToLong [48]) < 2 ^ ([48] : List Nat).length ∧
    decryptHuffmanCodes 10073 (nVal 101 103) (encryptHuffmanCodes eVal (nVal 101 103) [48])
      = [48, 32] ∧
    ¬ decryptHuffmanCodes 10073 (nVal 101 103)
        (encryptHuffmanCodes eVal (nVal 101 103) [48]) = [48] := by
  have hz : binaryToLong [48] = 0 := rfl
  have hez : encrypt eVal (nVal 101 103) 0 = 0 := by
    rw [nVal_101_103]
    exact encrypt_zero eVal 10403 (by rw [eVal]; norm_num) (by norm_num)
  have henc : encryptHuffmanCodes eVal (nVal 101 103) [48] = [48, 32] := by
    rw [encryptHuffmanCodes, tokenize_zero]
    simp only [List.map_cons, List.map_nil, List.flatten_cons, List.flatten_nil,
      List.append_nil]
    rw [hz, hez]
    rw [show (([48] : List Nat).length : Int) = ((1 : Nat) : Int) from rfl,
      show (0 : Int) = ((0 : Nat) : Int) from rfl, longToBinary_coe]
    rfl
  have hdec : decryptHuffmanCodes 10073 (nVal 101 103) [48, 32] = [48, 32] := by
    rw [decryptHuffmanCodes, tokenize_zero_sp]
    simp only [List.map_cons, List.map_nil, List.flatten_cons, List.flatten_nil,
      List.append_nil]
    rw [hz, show decrypt 10073 (nVal 101 103) 0 = 0 from by
      rw [nVal_101_103]; exact decrypt_zero 10073 10403 (by norm_num) (by norm_num)]
    rw [show (([48] : List Nat).length : Int) = ((1 : Nat) : Int) from rfl,
      show (0 : Int) = ((0 : Nat) : Int) from rfl, longToBinary_coe]
    rfl
  refine ⟨by norm_num, by norm_num, by decide, dVal_101_103, tokenize_zero, ?_, ?_, ?_, ?_⟩
  · rw [hz, nVal_101_103]
    norm_num
  · rw [hz, hez]
    norm_num
  · rw [henc, hdec]
  · rw [henc, hdec]
    simp

/-- C8: for every keypair parameters and every input, `encryptString` emits
one decimal token per input character (digit bytes only), single-space
separated with a trailing space, and `encryptHuffmanCodes` emits one binary
token per input token, each at exactly the width of the corresponding input
token, single-space separated with a trailing space. -/
theorem C8_output_format (e n : Int) (msg s : List Nat) :
    encryptString e n msg
      = joinTokens (msg.map (fun (c : Nat) => decimalChars (encrypt e n (c : Int)))) ∧
    tokenize (encryptString e n msg)
      = msg.map (fun (c : Nat) => decimalChars (encrypt e n (c : Int))) ∧
    (∀ c ∈ msg, ∀ b ∈ decimalChars (encrypt e n (c : Int)), 48 ≤ b ∧ b ≤ 57) ∧
    encryptHuffmanCodes e n s = joinTokens ((tokenize s).map (fun tok =>
      longToBinary (encrypt e n (binaryToLong tok)) (tok.length : Int))) ∧
    tokenize (encryptHuffmanCodes e n s) = (tokenize s).map (fun tok =>
      longToBinary (encrypt e n (binaryToLong tok)) (tok.length : Int)) ∧
    (∀ tok ∈ tokenize s,
      (longToBinary (encrypt e n (binaryToLong tok)) (tok.length : Int)).length
        = tok.length ∧
      ∀ b ∈ longToBinary (encrypt e n (binaryToLong tok)) (tok.length : Int),
        b = 48 ∨ b = 49) := by
  refine ⟨encryptString_eq_joinTokens e n msg, tokenize_encryptString e n msg, ?_,
    encryptHuffmanCodes_eq_joinTokens e n s, tokenize_encryptHuffmanCodes e n s, ?_⟩
  · intro c hc b hb
    have henc : 0 ≤ encrypt e n (c : Int) := modPow_nonneg _ _ _ (by positivity)
    rw [decimalChars, if_neg (by omega)] at hb
    exact decimalDigits_digits _ b hb
  · intro tok htok
    refine ⟨?_, longToBinary_binary _ _⟩
    rw [longToBinary_length]
    simp

/-- C8, witness: with `(e, n) = (65537, 10403)`, the text `"H"` tokenizes to
one decimal token, and a 2-bit code token is re-emitted at width 2. -/
theorem C8_witness :
    tokenize (encryptString 65537 10403 [72])
      = [decimalChars (encrypt 65537 10403 ((72 : Nat) : Int))] ∧
    (longToBinary (encrypt 65537 10403 (binaryToLong [48, 49]))
      (([48, 49] : List Nat).length : Int)).length = ([48, 49] : List Nat).length := by
  constructor
  · have h := (C8_output_format 65537 10403 [72] []).2.1
    simpa using h
  · have h := (C8_output_format 65537 10403 [] [48, 49]).2.2.2.2.2 [48, 49]
      (by rw [tokenize_pair01]; exact List.mem_singleton.mpr rfl)
    exact h.1

/-- C9: `longToBinary v w` is a string of exactly `w` binary digit bytes
holding the low `w` bits of `v` most significant first (the reference
rendering `natBits`), `binaryToLong` parses binary digit strings big-endian
(the reference value `natVal`), and the round trip gives `v mod 2^w`. -/
theorem C9_codec_spec (v w : Nat) :
    (longToBinary ((v : Nat) : Int) ((w : Nat) : Int)).length = w ∧
    (∀ c ∈ longToBinary ((v : Nat) : Int) ((w : Nat) : Int), c = 48 ∨ c = 49) ∧
    longToBinary ((v : Nat) : Int) ((w : Nat) : Int) = natBits v w ∧
    binaryToLong (longToBinary ((v : Nat) : Int) ((w : Nat) : Int))
      = ((v % 2 ^ w : Nat) : Int) ∧
    (∀ t : List Nat, (∀ c ∈ t, c = 48 ∨ c = 49) →
      binaryToLong t = ((natVal t : Nat) : Int)) := by
  refine ⟨?_, longToBinary_binary _ _, longToBinary_coe v w,
    binaryToLong_longToBinary v w, binaryToLong_eq⟩
  rw [longToBinary_length]
  simp

/-- C9, witness: the specification at `v = 13`, `w = 4`, and the parser at
the token `"1101"`. -/
theorem C9_witness :
    (longToBinary ((13 : Nat) : Int) ((4 : Nat) : Int)).length = 4 ∧
    binaryToLong (longToBinary ((13 : Nat) : Int) ((4 : Nat) : Int))
      = ((13 % 2 ^ 4 : Nat) : Int) ∧
    binaryToLong [49, 49, 48, 49] = ((natVal [49, 49, 48, 49] : Nat) : Int) :=
  ⟨(C9_codec_spec 13 4).1, (C9_codec_spec 13 4).2.2.2.1,
    (C9_codec_spec 13 4).2.2.2.2 [49, 49, 48, 49] (by decide)⟩

/-- C10: both decrypt methods split their input on runs of whitespace, so an
input presented with arbitrary leading whitespace and arbitrary positive
whitespace runs between tokens decrypts exactly like the single-space
serialisation of the same tokens, and an empty or all-whitespace input
yields the empty output. -/
theorem C10_whitespace_tokenization (d n : Int) (lead : List Nat)
    (pieces : List (List Nat × List Nat))
    (hlead : ∀ c ∈ lead, isSpaceByte c = true)
    (hpieces : ∀ pr ∈ pieces, pr.1 ≠ [] ∧ (∀ c ∈ pr.1, isSpaceByte c = false) ∧
      (∀ c ∈ pr.2, isSpaceByte c = true))
    (hsep : ∀ pr ∈ pieces.dropLast, pr.2 ≠ []) :
    decryptString d n (renderPieces lead pieces)
      = decryptString d n (joinTokens (pieces.map Prod.fst)) ∧
    decryptHuffmanCodes d n (renderPieces lead pieces)
      = decryptHuffmanCodes d n (joinTokens (pieces.map Prod.fst)) ∧
    (∀ ws, (∀ c ∈ ws, isSpaceByte c = true) →
      decryptString d n ws = some [] ∧ decryptHuffmanCodes d n ws = []) := by
  have htok : tokenize (renderPieces lead pieces) = pieces.map Prod.fst :=
    tokenize_render pieces lead hlead hpieces hsep
  have htok2 : tokenize (joinTokens (pieces.map Prod.fst)) = pieces.map Prod.fst := by
    apply tokenize_joinTokens
    intro t ht
    obtain ⟨pr, hpr, rfl⟩ := List.mem_map.mp ht
    exact ⟨(hpieces pr hpr).1, (hpieces pr hpr).2.1⟩
  refine ⟨?_, ?_, ?_⟩
  · rw [decryptString, decryptString, htok, htok2]
  · rw [decryptHuffmanCodes, decryptHuffmanCodes, htok, htok2]
  · intro ws hws
    have h0 : tokenize ws = [] := by
      have h1 := tokenize_ws_append ws [] hws
      rw [List.append_nil] at h1
      rw [h1, tokenize_nil]
    exact ⟨by rw [decryptString, h0]; rfl, by rw [decryptHuffmanCodes, h0]; rfl⟩

/-- C10, witness: the input `" 1\t\t2"` decrypts exactly like `"1 2 "`, and
the all-whitespace input `" \t"` decrypts to nothing. -/
theorem C10_witness :
    decryptString 3 7 (renderPieces [32] [([49], [9, 9]), ([50], [])])
      = decryptString 3 7 (joinTokens ([([49], [9, 9]), ([50], ([] : List Nat))].map Prod.fst)) ∧
    decryptHuffmanCodes 3 7 (renderPieces [32] [([49], [9, 9]), ([50], [])])
      = decryptHuffmanCodes 3 7 (joinTokens ([([49], [9, 9]), ([50], ([] : List Nat))].map Prod.fst)) ∧
    decryptString 3 7 [32, 9] = some [] ∧ decryptHuffmanCodes 3 7 [32, 9] = [] := by
  have h := C10_whitespace_tokenization 3 7 [32] [([49], [9, 9]), ([50], [])]
    (by decide) (by decide) (by decide)
  exact ⟨h.1, h.2.1, (h.2.2 [32, 9] (by decide)).1, (h.2.2 [32, 9] (by decide)).2⟩

end RSA
